import Mathlib

/-!
# Directed graph in adjacency-list form (`ArielJackson_dir_graph.c`)

A shallow embedding of the C program. A chain (`adjlist *`) is the list of the
`val` fields from its head to the terminating `NULL`; a store (`graph`) is its
`n_vertices` field together with the block `v_array` points to. Every C function
becomes a function of the process state (`World`) returning an `Outcome`: a normal
return, a call of `exit`, or an access outside an allocated object, for which C
defines no behaviour. `unsigned int` values are natural numbers below `2 ^ 32`;
the only arithmetic of the program that could leave its type is the byte count
passed to `malloc` in `graph_new`, which is reduced modulo `SIZE_MAX + 1`.

The calls of `free` need the nodes themselves: the namespace `Mem` embeds `al_cons`,
`graph_new`, `add_edge`, `al_free` and `graph_free` a second time, over a heap of
blocks with addresses.
-/

namespace DirGraph

/-! ## Process state and outcomes -/

/-- Observable process state: the text written so far to the two streams, and the
results of the `malloc` calls still to come, in call order (`false`: the call
returns `NULL`; once the list is used up every call succeeds). -/
structure World where
  stdout : String
  stderr : String
  heap : List Bool
deriving DecidableEq, Repr

/-- How a call ends. -/
inductive Outcome (α : Type) where
  /-- the function returns `a` -/
  | ret (a : α) (w : World) : Outcome α
  /-- the process was ended by `exit(status)` -/
  | exited (status : Nat) (w : World) : Outcome α
  /-- an object was accessed through `NULL` or outside its allocation -/
  | undef : Outcome α
deriving DecidableEq, Repr

/-- A C computation. -/
def Prog (α : Type) : Type := World → Outcome α

/-- Sequencing: the second computation runs only if the first one returns. -/
def Prog.bind {α β : Type} (m : Prog α) (f : α → Prog β) : Prog β := fun w =>
  match m w with
  | Outcome.ret a w1 => f a w1
  | Outcome.exited c w1 => Outcome.exited c w1
  | Outcome.undef => Outcome.undef

instance : Monad Prog where
  pure a := fun w => Outcome.ret a w
  bind := Prog.bind

/-- `printf` of an already formatted text: appended to standard output. -/
def printf (s : String) : Prog Unit := fun w =>
  Outcome.ret () { w with stdout := w.stdout ++ s }

/-- `fprintf(stderr, ...)` of an already formatted text. -/
def fprintf_stderr (s : String) : Prog Unit := fun w =>
  Outcome.ret () { w with stderr := w.stderr ++ s }

/-- The library call `exit(status)`: the process ends, nothing after it runs. -/
def exit {α : Type} (status : Nat) : Prog α := fun w => Outcome.exited status w

/-- Undefined behaviour. -/
def undef {α : Type} : Prog α := fun _ => Outcome.undef

/-- The library call `malloc(size)`: a pointer to a fresh block of `size` bytes
(`some size`) or `NULL` (`none`), as the next entry of `World.heap` says. -/
def malloc (size : Nat) : Prog (Option Nat) := fun w =>
  match w.heap with
  | [] => Outcome.ret (some size) w
  | b :: rest => Outcome.ret (if b then some size else none) { w with heap := rest }

/-- Every `malloc` call still to come succeeds. -/
def allocs_ok (w : World) : Prop := ∀ b ∈ w.heap, b = true

instance (w : World) : Decidable (allocs_ok w) := by
  unfold allocs_ok; infer_instance

/-! ## Target constants (LP64: 8-byte pointers, 64-bit `size_t`) -/

/-- Largest value of `size_t`. -/
def SIZE_MAX : Nat := 2 ^ 64 - 1

/-- Largest value of `unsigned int`. -/
def UINT_MAX : Nat := 2 ^ 32 - 1

/-- The value of `sizeof (adjlist *)`. -/
def sizeof_ptr : Nat := 8

/-- The value of `sizeof (adjlist)`: an `unsigned int`, padding and a pointer. -/
def sizeof_adjlist : Nat := 16

/-- The value of `sizeof (graph)`: an `unsigned int`, padding and a pointer. -/
def sizeof_graph : Nat := 16

/-! ## Structures -/

/-- A chain `adjlist *`: the `val` fields from the head node on; `NULL` is `[]`. -/
abbrev adjlist : Type := List Nat

/-- The structure `graph`. `v_array` is `none` for a `NULL` pointer and otherwise
the slots of the block it points to. -/
structure graph where
  n_vertices : Nat
  v_array : Option (List adjlist)
deriving DecidableEq, Repr

/-- The read `graph->v_array[i]`. -/
def load_slot (g : graph) (i : Nat) : Prog adjlist := fun w =>
  match g.v_array with
  | none => Outcome.undef
  | some slots =>
    match slots[i]? with
    | some xs => Outcome.ret xs w
    | none => Outcome.undef

/-- The write `graph->v_array[i] = xs`. -/
def store_slot (g : graph) (i : Nat) (xs : adjlist) : Prog graph := fun w =>
  match g.v_array with
  | none => Outcome.undef
  | some slots =>
    if i < slots.length then
      Outcome.ret { g with v_array := some (slots.set i xs) } w
    else Outcome.undef

/-! ## Adjacency list operations -/

/-- The function `al_new`: a one-node chain. -/
def al_new (x : Nat) : Prog adjlist := do
  let list ← malloc sizeof_adjlist
  if list = none then
    fprintf_stderr "error (al_new): malloc failed\n"
    exit 1
  pure [x]

/-- The function `al_cons`: a new node holding `x` in front of `xs`. -/
def al_cons (x : Nat) (xs : adjlist) : Prog adjlist := do
  let al_node ← malloc sizeof_adjlist
  if al_node = none then
    fprintf_stderr "error (al_cons): malloc failed-not enough memory\n"
    exit 1
  pure (x :: xs)

/-! ## Graph operations -/

/-- The loop `for (i = 0; i < v; i++) new_alist[i] = NULL;` of `graph_new`. The
first numeric argument counts the iterations left (`v - i`), `cells` holds the
slots written so far (those below `i`). The block has `bytes / sizeof_ptr`
slots; a write beyond them, or through `NULL`, is undefined. -/
def graph_new_loop (new_alist : Option Nat) : Nat → Nat → List adjlist → Prog (List adjlist)
  | 0, _, cells => pure cells
  | r + 1, i, cells =>
    match new_alist with
    | none => undef
    | some bytes =>
      if i < bytes / sizeof_ptr then graph_new_loop new_alist r (i + 1) (cells ++ [[]])
      else undef

/-- The function `graph_new`. A failed allocation is reported on `stderr` and the
function carries on; storing through a `NULL` `new_graph` is undefined. -/
def graph_new (v : Nat) : Prog graph := do
  let new_graph ← malloc sizeof_graph
  if new_graph = none then
    fprintf_stderr "error (graph_new): malloc failed on new_graph\n"
  let new_alist ← malloc (sizeof_ptr * v % (SIZE_MAX + 1))
  if new_alist = none then
    fprintf_stderr "error (graph_new): malloc failed on new_alist\n"
  let cells ← graph_new_loop new_alist v 0 []
  match new_graph with
  | none => undef
  | some _ => pure { n_vertices := v, v_array := new_alist.map fun _ => cells }

/-- The function `add_edge`. The argument `graph->v_array[source]` is read before
`al_cons` is entered. -/
def add_edge (g : graph) (source dest : Nat) : Prog graph := do
  let old ← load_slot g source
  let new_alist ← al_cons dest old
  store_slot g source new_alist

/-- A caller's sequence of `add_edge(source, dest)` calls on one store, in order,
as `main` performs. -/
def add_edges (g : graph) : List (Nat × Nat) → Prog graph
  | [] => pure g
  | (source, dest) :: rest => do
    let g1 ← add_edge g source dest
    add_edges g1 rest

/-! ## Printing -/

/-- The function `vertex_tos`. -/
def vertex_tos (n : Nat) : Prog String :=
  match n with
  | 0 => pure "A"
  | 1 => pure "B"
  | 2 => pure "C"
  | 3 => pure "D"
  | 4 => pure "E"
  | 5 => pure "F"
  | 6 => pure "G"
  | _ => do
    fprintf_stderr "error (vertex_tos): no string representation for vertex\n"
    exit 1

/-- The inner loop `while (tmp) ...` of `al_graph_print`. -/
def al_graph_print_chain : adjlist → Prog Unit
  | [] => pure ()
  | val :: next => do
    let s ← vertex_tos val
    printf (" " ++ s ++ "->")
    al_graph_print_chain next

/-- The loop `for (v = 0; v < graph->n_vertices; v++)` of `al_graph_print`; the
first numeric argument counts the iterations left (`graph->n_vertices - v`). -/
def al_graph_print_loop (g : graph) : Nat → Nat → Prog Unit
  | 0, _ => pure ()
  | r + 1, v => do
    let tmp ← load_slot g v
    let s ← vertex_tos v
    printf ("Adjacency list for vertex " ++ s ++ ": \n \x7b ")
    al_graph_print_chain tmp
    printf " \x7d\n"
    al_graph_print_loop g r (v + 1)

/-- The function `al_graph_print`. -/
def al_graph_print (g : graph) : Prog Unit := do
  printf "\n******** ADJACENCY LIST REPRESENTATION ********:\n\n"
  al_graph_print_loop g g.n_vertices 0

/-- The inner loop `while (tmp) ...` of `graph_print`, for the vertex `v`. C leaves the
order of the two label lookups of the `printf` open; the lookup for `v` has succeeded
for the header line before the loop is entered, so either order ends the same way. -/
def graph_print_chain (v : Nat) : adjlist → Prog Unit
  | [] => pure ()
  | val :: next => do
    let s ← vertex_tos v
    let d ← vertex_tos val
    printf (" (" ++ s ++ ", " ++ d ++ ") ;")
    graph_print_chain v next

/-- The loop `for (v = 0; v < graph->n_vertices; v++)` of `graph_print`; the
first numeric argument counts the iterations left. -/
def graph_print_loop (g : graph) : Nat → Nat → Prog Unit
  | 0, _ => pure ()
  | r + 1, v => do
    let tmp ← load_slot g v
    let s ← vertex_tos v
    printf ("Vertex " ++ s ++ " has these outgoing edges: \n")
    graph_print_chain v tmp
    printf "\n"
    graph_print_loop g r (v + 1)

/-- The function `graph_print`. -/
def graph_print (g : graph) : Prog Unit := do
  printf "\n******** GRAPH VERTICES & EDGES REPRESENTATION ********:\n\n"
  graph_print_loop g g.n_vertices 0

/-- A process state with nothing written and every allocation succeeding. -/
def World.init : World := { stdout := "", stderr := "", heap := [] }

/-! ## The invariant and the texts the claims speak of -/

/-- The store invariant of the data model: the slot sequence has exactly `n_vertices`
entries and every value in every chain is below `n_vertices`. -/
def WF (g : graph) : Prop :=
  match g.v_array with
  | none => False
  | some slots => slots.length = g.n_vertices ∧ ∀ c ∈ slots, ∀ x ∈ c, x < g.n_vertices

instance (g : graph) : Decidable (WF g) := by
  unfold WF; cases g.v_array <;> infer_instance

/-- The letter `vertex_tos` returns for an index from 0 to 6. No other index has one;
the empty text stands in there. -/
def label (n : Nat) : String :=
  match n with
  | 0 => "A"
  | 1 => "B"
  | 2 => "C"
  | 3 => "D"
  | 4 => "E"
  | 5 => "F"
  | 6 => "G"
  | _ => ""

/-- The texts of a list, one after the other. -/
def cat (l : List String) : String := l.foldr (fun s r => s ++ r) ""

/-- What the read `graph->v_array[i]` yields, where that read is defined. -/
def slot_at (g : graph) (i : Nat) : Option adjlist :=
  match g.v_array with
  | none => none
  | some slots => slots[i]?

/-- The chain of slot `v` of a store (empty where there is no such slot). -/
def chain_at (g : graph) (v : Nat) : adjlist := (slot_at g v).getD []

/-- The banner of the adjacency view. -/
def adj_banner : String := "\n******** ADJACENCY LIST REPRESENTATION ********:\n\n"

/-- The banner of the edge view. -/
def edge_banner : String := "\n******** GRAPH VERTICES & EDGES REPRESENTATION ********:\n\n"

/-- One vertex entry of the adjacency view, for the vertex labelled `l` with the
destination labels `ds`: the header, an opening bracket, every destination followed by
a connector, the closing bracket. -/
def adj_entry (l : String) (ds : List String) : String :=
  "Adjacency list for vertex " ++ l ++ ": \n \x7b " ++ cat (ds.map fun d => " " ++ d ++ "->")
    ++ " \x7d\n"

/-- One vertex entry of the edge view, for the vertex labelled `l` with the destination
labels `ds`: the header line, one pair token for every destination, a line break. -/
def edge_entry (l : String) (ds : List String) : String :=
  "Vertex " ++ l ++ " has these outgoing edges: \n"
    ++ cat (ds.map fun d => " (" ++ l ++ ", " ++ d ++ ") ;") ++ "\n"

/-- What a view has to show of a store: for every vertex in increasing index order its
label and the labels of its chain from head to tail. -/
def rows (g : graph) : List (String × List String) :=
  (List.range g.n_vertices).map fun v => (label v, (chain_at g v).map label)

/-! ## Printing a chain -/

/-- Largest value of `int`. -/
def INT_MAX : Nat := 2 ^ 31 - 1

/-- The `int` that `printf` fetches for a `%d` when the argument passed is the
`unsigned int` `u`. Up to `INT_MAX` it is the value itself. Above it the C standard
gives the call no meaning; the target hands the same 32 bits over and they are read in
two's complement. -/
def int_of_unsigned (u : Nat) : Int :=
  if u % (UINT_MAX + 1) ≤ INT_MAX then (↑(u % (UINT_MAX + 1)) : Int)
  else (↑(u % (UINT_MAX + 1)) : Int) - (↑(UINT_MAX + 1) : Int)

/-- The text of the conversion `%d`: the decimal digits, after a minus sign for a
negative number. -/
def fmt_d : Int → String
  | Int.ofNat m => Nat.repr m
  | Int.negSucc m => "-" ++ Nat.repr (m + 1)

/-- The function `al_print`. -/
def al_print : adjlist → Prog Unit
  | [] => pure ()
  | val :: next => do
    printf (fmt_d (int_of_unsigned val) ++ ", ")
    al_print next

/-! ## The heap: blocks with addresses, and the calls of `free`

The embedding above keeps the values of a chain and not its nodes. To follow the calls
of `free` the same functions are embedded once more, namespace `Mem`, over a heap of
blocks with addresses. -/

/-- A pointer: `none` is `NULL`, `some a` is the address of a block. -/
abbrev Ptr : Type := Option Nat

/-- What an allocated block holds. -/
inductive Block where
  /-- `size` bytes as they come from `malloc`, nothing stored yet -/
  | raw (size : Nat) : Block
  /-- a structure `adjlist` -/
  | node (val : Nat) (next : Ptr) : Block
  /-- the array of chain heads `v_array` points to -/
  | slots (cells : List Ptr) : Block
  /-- a structure `graph` -/
  | header (n_vertices : Nat) (v_array : Ptr) : Block
deriving DecidableEq, Repr

/-- The heap: the live blocks by address, the address the next `malloc` hands out (all
addresses handed out so far are below it), and the addresses passed to `free` so far,
in call order. -/
structure Heap where
  blocks : Nat → Option Block
  brk : Nat
  freed : List Nat

/-- A C computation on the heap and the process state. -/
def HProg (α : Type) : Type := Heap → World → Outcome (α × Heap)

/-- Sequencing, as for `Prog`. -/
def HProg.bind {α β : Type} (m : HProg α) (f : α → HProg β) : HProg β := fun h w =>
  match m h w with
  | Outcome.ret (a, h1) w1 => f a h1 w1
  | Outcome.exited c w1 => Outcome.exited c w1
  | Outcome.undef => Outcome.undef

instance : Monad HProg where
  pure a := fun h w => Outcome.ret (a, h) w
  bind := HProg.bind

/-- A computation that leaves the heap alone. -/
def HProg.lift {α : Type} (m : Prog α) : HProg α := fun h w =>
  match m w with
  | Outcome.ret a w1 => Outcome.ret (a, h) w1
  | Outcome.exited c w1 => Outcome.exited c w1
  | Outcome.undef => Outcome.undef

/-- The heap after `free` has been called on the live blocks `l`, in this order. -/
def Heap.release (h : Heap) (l : List Nat) : Heap :=
  { blocks := fun x => if x ∈ l then none else h.blocks x
    brk := h.brk
    freed := h.freed ++ l }

/-- The heap of a starting process: no block, nothing freed. -/
def Heap.init : Heap := { blocks := fun _ => none, brk := 0, freed := [] }

namespace Mem

/-- The library call `malloc(size)`: when it succeeds, a new block at the address
`brk`. -/
def malloc (size : Nat) : HProg Ptr := fun h w =>
  match DirGraph.malloc size w with
  | Outcome.ret (some _) w1 =>
    Outcome.ret
      (some h.brk,
        { blocks := fun x => if x = h.brk then some (Block.raw size) else h.blocks x
          brk := h.brk + 1
          freed := h.freed }) w1
  | Outcome.ret none w1 => Outcome.ret (none, h) w1
  | Outcome.exited c w1 => Outcome.exited c w1
  | Outcome.undef => Outcome.undef

/-- The library call `free(p)`: nothing for `NULL`; a live block is given back and the
call is recorded; anything else is undefined. -/
def free (p : Ptr) : HProg Unit := fun h w =>
  match p with
  | none => Outcome.ret ((), h) w
  | some a =>
    match h.blocks a with
    | none => Outcome.undef
    | some _ => Outcome.ret ((), h.release [a]) w

/-- A read through `p`: the block it points to. -/
def load (p : Ptr) : HProg Block := fun h w =>
  match p with
  | none => Outcome.undef
  | some a =>
    match h.blocks a with
    | none => Outcome.undef
    | some b => Outcome.ret (b, h) w

/-- The stores that fill the block `p` points to with `b`. -/
def store (p : Ptr) (b : Block) : HProg Unit := fun h w =>
  match p with
  | none => Outcome.undef
  | some a =>
    match h.blocks a with
    | none => Outcome.undef
    | some _ =>
      Outcome.ret ((), { h with blocks := fun x => if x = a then some b else h.blocks x }) w

/-- The reads `p->val` and `p->next`. -/
def load_node (p : Ptr) : HProg (Nat × Ptr) := do
  let b ← load p
  match b with
  | Block.node val next => pure (val, next)
  | _ => fun _ _ => Outcome.undef

/-- The reads `p->n_vertices` and `p->v_array`. -/
def load_header (p : Ptr) : HProg (Nat × Ptr) := do
  let b ← load p
  match b with
  | Block.header n_vertices v_array => pure (n_vertices, v_array)
  | _ => fun _ _ => Outcome.undef

/-- The read `v_array[i]`. -/
def load_cell (v_array : Ptr) (i : Nat) : HProg Ptr := do
  let b ← load v_array
  match b with
  | Block.slots cells =>
    match cells[i]? with
    | some c => pure c
    | none => fun _ _ => Outcome.undef
  | _ => fun _ _ => Outcome.undef

/-- The write `v_array[i] = c`. -/
def store_cell (v_array : Ptr) (i : Nat) (c : Ptr) : HProg Unit := do
  let b ← load v_array
  match b with
  | Block.slots cells =>
    if i < cells.length then store v_array (Block.slots (cells.set i c))
    else fun _ _ => Outcome.undef
  | _ => fun _ _ => Outcome.undef

/-- The function `al_cons` on the heap. -/
def al_cons (x : Nat) (xs : Ptr) : HProg Ptr := do
  let al_node ← malloc sizeof_adjlist
  if al_node = none then
    HProg.lift (fprintf_stderr "error (al_cons): malloc failed-not enough memory\n")
    HProg.lift (exit 1)
  store al_node (Block.node x xs)
  pure al_node

/-- The loop of `al_free`: `freed = tmp; tmp = tmp->next; free(freed);` while `tmp` is
not `NULL`. Every iteration gives a block back and there are at most `brk` blocks, so
the first argument, which starts at `brk`, bounds the iterations; a `tmp` that is not
`NULL` when no block is left dangles. -/
def al_free_loop : Nat → Ptr → HProg Unit
  | _, none => pure ()
  | 0, some _ => fun _ _ => Outcome.undef
  | fuel + 1, some a => do
    let (_, next) ← load_node (some a)
    free (some a)
    al_free_loop fuel next

/-- The function `al_free`. -/
def al_free (xs : Ptr) : HProg Unit := fun h w => al_free_loop h.brk xs h w

/-- The loop `for (i = 0; i < v; i++) new_alist[i] = NULL;` of `graph_new`, as in
`DirGraph.graph_new_loop`: `cells` holds the slots written so far. -/
def graph_new_loop (new_alist : Ptr) : Nat → Nat → List Ptr → HProg (List Ptr)
  | 0, _, cells => pure cells
  | r + 1, i, cells => do
    let b ← load new_alist
    match b with
    | Block.raw bytes =>
      if i < bytes / sizeof_ptr then graph_new_loop new_alist r (i + 1) (cells ++ [none])
      else fun _ _ => Outcome.undef
    | _ => fun _ _ => Outcome.undef

/-- The function `graph_new` on the heap; it returns the pointer `new_graph`. The slots
the loop has written are put into the block when the loop is done. -/
def graph_new (v : Nat) : HProg Ptr := do
  let new_graph ← malloc sizeof_graph
  if new_graph = none then
    HProg.lift (fprintf_stderr "error (graph_new): malloc failed on new_graph\n")
  let new_alist ← malloc (sizeof_ptr * v % (SIZE_MAX + 1))
  if new_alist = none then
    HProg.lift (fprintf_stderr "error (graph_new): malloc failed on new_alist\n")
  let cells ← graph_new_loop new_alist v 0 []
  if new_alist ≠ none then
    store new_alist (Block.slots cells)
  store new_graph (Block.header v new_alist)
  pure new_graph

/-- The function `add_edge` on the heap. -/
def add_edge (graph : Ptr) (source dest : Nat) : HProg Unit := do
  let (_, v_array) ← load_header graph
  let old ← load_cell v_array source
  let new_alist ← al_cons dest old
  let (_, v_array1) ← load_header graph
  store_cell v_array1 source new_alist

/-- A caller's sequence of `add_edge(graph, source, dest)` calls, in order. -/
def add_edges (graph : Ptr) : List (Nat × Nat) → HProg Unit
  | [] => pure ()
  | (source, dest) :: rest => do
    add_edge graph source dest
    add_edges graph rest

/-- The loop `for (i = 0; i < graph->n_vertices; i++) al_free(graph->v_array[i]);` of
`graph_free`; the first numeric argument counts the iterations left. -/
def graph_free_loop (graph : Ptr) : Nat → Nat → HProg Unit
  | 0, _ => pure ()
  | r + 1, i => do
    let (_, v_array) ← load_header graph
    let c ← load_cell v_array i
    al_free c
    graph_free_loop graph r (i + 1)

/-- The function `graph_free`. -/
def graph_free (graph : Ptr) : HProg Unit := do
  if graph ≠ none then
    let (n_vertices, v_array) ← load_header graph
    if v_array ≠ none then
      graph_free_loop graph n_vertices 0
      let (_, v_array1) ← load_header graph
      free v_array1
    free graph

end Mem

/-- The blocks of a chain: `is_chain h p addrs` says that `p` leads, through blocks of
`h` that are nodes, along the addresses `addrs` to `NULL`. -/
def is_chain (h : Heap) : Ptr → List Nat → Prop
  | p, [] => p = none
  | p, a :: rest =>
    p = some a ∧ ∃ val next, h.blocks a = some (Block.node val next) ∧ is_chain h next rest

/-- Every live block has an address below `brk`. -/
def heap_wf (h : Heap) : Prop := ∀ a, h.brk ≤ a → h.blocks a = none

/-- The addresses of the nodes that `j` insertions allocate after a `graph_new` that
was entered with `brk = f` (header at `f`, slots at `f + 1`), the last one first. -/
def node_addrs (f j : Nat) : List Nat := (List.range j).reverse.map fun i => f + 2 + i

/-- The heap `h` holds what `graph_new(n)`, entered in the heap `h0`, and then `j` calls
`add_edge` with the source `s` have built: the header, the slots with the chain of the
`j` nodes at `s` and `NULL` elsewhere, and beside them the blocks of `h0`. -/
def built (h0 : Heap) (n s j : Nat) (h : Heap) : Prop :=
  h.brk = h0.brk + 2 + j ∧ h.freed = h0.freed ∧
  h.blocks h0.brk = some (Block.header n (some (h0.brk + 1))) ∧
  (∃ cells p, h.blocks (h0.brk + 1) = some (Block.slots cells) ∧ cells.length = n ∧
    cells[s]? = some p ∧ (∀ i, i ≠ s → i < n → cells[i]? = some none) ∧
    is_chain h p (node_addrs h0.brk j)) ∧
  ∀ a, a < h0.brk ∨ h0.brk + 2 + j ≤ a → h.blocks a = h0.blocks a

/-! ## Basic facts about the embedding -/

theorem bind_apply {α β : Type} (m : Prog α) (f : α → Prog β) (w : World) :
    (m >>= f) w = Prog.bind m f w := rfl

theorem pure_apply {α : Type} (a : α) (w : World) :
    (pure a : Prog α) w = Outcome.ret a w := rfl

theorem malloc_ok (size : Nat) (w : World) (h : w.heap.head? ≠ some false) :
    malloc size w = Outcome.ret (some size) { w with heap := w.heap.tail } := by
  unfold malloc
  cases hh : w.heap with
  | nil => cases w; simp_all
  | cons b rest =>
    cases b
    · simp [hh] at h
    · simp

theorem al_cons_ok (x : Nat) (xs : adjlist) (w : World) (h : w.heap.head? ≠ some false) :
    al_cons x xs w = Outcome.ret (x :: xs) { w with heap := w.heap.tail } := by
  simp [al_cons, bind_apply, Prog.bind, malloc_ok _ _ h, pure_apply]

theorem add_edge_ok (g : graph) (slots : List adjlist) (source dest : Nat) (w : World)
    (hv : g.v_array = some slots) (hs : source < slots.length)
    (h : w.heap.head? ≠ some false) :
    add_edge g source dest w =
      Outcome.ret ⟨g.n_vertices, some (slots.set source (dest :: slots.getD source []))⟩
        { w with heap := w.heap.tail } := by
  simp [add_edge, bind_apply, Prog.bind, load_slot, store_slot, hv, hs, al_cons_ok _ _ _ h,
    List.getElem?_eq_getElem hs, List.getD_eq_getElem?_getD]

theorem allocs_ok_head (w : World) (h : allocs_ok w) : w.heap.head? ≠ some false := by
  unfold allocs_ok at h
  cases hh : w.heap with
  | nil => simp
  | cons b rest =>
    have := h b (by simp [hh])
    simp [this]

theorem allocs_ok_tail (w : World) (h : allocs_ok w) :
    allocs_ok { w with heap := w.heap.tail } := by
  unfold allocs_ok at *
  intro b hb
  exact h b (List.mem_of_mem_tail hb)

theorem graph_new_loop_ok (bytes : Nat) (w : World) :
    ∀ (r i : Nat) (cells : List adjlist), i + r ≤ bytes / sizeof_ptr →
      graph_new_loop (some bytes) r i cells w = Outcome.ret (cells ++ List.replicate r []) w := by
  intro r
  induction r with
  | zero => intro i cells _; simp [graph_new_loop, pure_apply]
  | succ r ih =>
    intro i cells h
    have hi : i < bytes / sizeof_ptr := by omega
    simp only [graph_new_loop, hi, if_true]
    rw [ih (i + 1) (cells ++ [[]]) (by omega)]
    simp [List.replicate_succ]

theorem graph_new_ok (v : Nat) (w : World) (hv : v ≤ UINT_MAX)
    (h : ∀ b ∈ w.heap.take 2, b = true) :
    graph_new v w =
      Outcome.ret ⟨v, some (List.replicate v [])⟩ { w with heap := w.heap.drop 2 } := by
  have h1 : w.heap.head? ≠ some false := by
    cases hh : w.heap with
    | nil => simp
    | cons b rest => have := h b (by simp [hh]); simp [this]
  have h2 : w.heap.tail.head? ≠ some false := by
    cases hh : w.heap with
    | nil => simp
    | cons b rest =>
      cases hr : rest with
      | nil => simp
      | cons c rest2 => have := h c (by simp [hh, hr]); simp [this]
  have hbytes : sizeof_ptr * v % (SIZE_MAX + 1) = sizeof_ptr * v := by
    apply Nat.mod_eq_of_lt
    simp only [sizeof_ptr, SIZE_MAX, UINT_MAX] at *
    omega
  have hk : 0 + v ≤ sizeof_ptr * v / sizeof_ptr := by
    simp [sizeof_ptr]
  simp only [graph_new, bind_apply, Prog.bind, malloc_ok _ _ h1]
  have h2w : ({ w with heap := w.heap.tail } : World).heap.head? ≠ some false := h2
  simp [bind_apply, Prog.bind, pure_apply, malloc_ok _ _ h2w, hbytes, graph_new_loop_ok _ _ v 0 [] hk]
  rcases w.heap with _ | ⟨_, _ | _⟩ <;> simp
  

theorem add_edges_ok (edges : List (Nat × Nat)) :
    ∀ (g : graph) (slots : List adjlist) (w : World), g.v_array = some slots →
      (∀ e ∈ edges, e.1 < slots.length) → allocs_ok w →
      ∃ slots1 w1, add_edges g edges w = Outcome.ret ⟨g.n_vertices, some slots1⟩ w1 ∧
        slots1.length = slots.length ∧ allocs_ok w1 ∧
        w1.stdout = w.stdout ∧ w1.stderr = w.stderr ∧
        ∀ v, slots1[v]? = (slots[v]?).map fun old =>
          ((edges.filter fun e => e.1 = v).map Prod.snd).reverse ++ old := by
  induction edges with
  | nil =>
    intro g slots w hv _ hw
    refine ⟨slots, w, ?_, rfl, hw, rfl, rfl, ?_⟩
    · cases g; simp_all [add_edges, pure_apply]
    · intro v; cases slots[v]? <;> simp
  | cons e rest ih =>
    intro g slots w hv he hw
    obtain ⟨s, d⟩ := e
    have hs : s < slots.length := he (s, d) (by simp)
    have hrest : ∀ e ∈ rest, e.1 < (slots.set s (d :: slots.getD s [])).length := by
      intro e hmem
      simpa using he e (by simp [hmem])
    obtain ⟨slots1, w1, hrun, hlen, hw1, hout, herr, hget⟩ :=
      ih ⟨g.n_vertices, some (slots.set s (d :: slots.getD s []))⟩ _
        { w with heap := w.heap.tail } rfl hrest (allocs_ok_tail w hw)
    refine ⟨slots1, w1, ?_, by simpa using hlen, hw1, hout, herr, ?_⟩
    · simp only [add_edges, bind_apply, Prog.bind,
        add_edge_ok g slots s d w hv hs (allocs_ok_head w hw)]
      exact hrun
    · intro v
      rw [hget v]
      by_cases hsv : s = v
      · subst hsv
        simp [List.getElem?_set_self hs, List.getElem?_eq_getElem hs, List.getD_eq_getElem?_getD]
      · have : ¬ (s, d).1 = v := hsv
        simp [List.getElem?_set_ne hsv, List.filter_cons, hsv]

/-! ## Claims about construction and edge insertion -/

/-- C1: on `graph_new(n)` followed by any sequence of `add_edge(source, dest)` calls with
`source < n` and `dest < n`, every slot `v < n` holds, head to tail, the reverse of the
`dest` values of the calls whose source is `v` (the last inserted comes first). -/
theorem add_edge_reverse_insertion_order (n : Nat) (edges : List (Nat × Nat)) (w : World)
    (hn : n ≤ UINT_MAX) (hw : allocs_ok w) (he : ∀ e ∈ edges, e.1 < n ∧ e.2 < n) :
    ∃ slots w1,
      (graph_new n >>= fun g => add_edges g edges) w = Outcome.ret ⟨n, some slots⟩ w1 ∧
      ∀ v, v < n →
        slots[v]? = some ((edges.filter fun e => e.1 = v).map Prod.snd).reverse := by
  have h2 : ∀ b ∈ w.heap.take 2, b = true := fun b hb => hw b (List.mem_of_mem_take hb)
  have hw2 : allocs_ok { w with heap := w.heap.drop 2 } :=
    fun b hb => hw b (List.mem_of_mem_drop hb)
  obtain ⟨slots1, w1, hrun, _, _, _, _, hget⟩ :=
    add_edges_ok edges ⟨n, some (List.replicate n [])⟩ (List.replicate n [])
      { w with heap := w.heap.drop 2 } rfl (by simpa using fun a b h => (he (a, b) h).1) hw2
  refine ⟨slots1, w1, ?_, ?_⟩
  · simp only [bind_apply, Prog.bind, graph_new_ok n w hn h2]
    exact hrun
  · intro v hv
    rw [hget v]
    simp [List.getElem?_replicate, hv]

/-- C1, the scenario of `main`: the seven inserts on `graph_new(7)` leave `[6, 4]` in
slot 3, `[2, 1]` in slot 0, and slots 1 and 5 empty. -/
theorem add_edge_reverse_insertion_order_witness :
    ∃ slots w1,
      (graph_new 7 >>= fun g =>
        add_edges g [(0, 1), (0, 2), (2, 3), (3, 4), (3, 6), (4, 5), (6, 5)]) World.init
        = Outcome.ret ⟨7, some slots⟩ w1 ∧
      slots[3]? = some [6, 4] ∧ slots[0]? = some [2, 1] ∧
      slots[1]? = some [] ∧ slots[5]? = some [] := by
  obtain ⟨slots, w1, hrun, h⟩ :=
    add_edge_reverse_insertion_order 7
      [(0, 1), (0, 2), (2, 3), (3, 4), (3, 6), (4, 5), (6, 5)] World.init
      (by decide) (by decide) (by decide)
  exact ⟨slots, w1, hrun, by simpa using h 3 (by decide), by simpa using h 0 (by decide),
    by simpa using h 1 (by decide), by simpa using h 5 (by decide)⟩

/-- C2: for a store with `n_vertices` slots and `source < n_vertices`, `add_edge` (its
allocation succeeding) returns a store in which slot `source` is `dest` in front of its
old chain, every other slot is as before, and `n_vertices` and the number of slots are
unchanged. -/
theorem add_edge_mutates_one_slot (g : graph) (slots : List adjlist) (source dest : Nat)
    (w : World) (hv : g.v_array = some slots) (hlen : slots.length = g.n_vertices)
    (hs : source < g.n_vertices) (hm : w.heap.head? ≠ some false) :
    ∃ g1 slots1 w1 old, add_edge g source dest w = Outcome.ret g1 w1 ∧
      g1.v_array = some slots1 ∧
      slots[source]? = some old ∧ slots1[source]? = some (dest :: old) ∧
      (∀ i, i ≠ source → slots1[i]? = slots[i]?) ∧
      g1.n_vertices = g.n_vertices ∧ slots1.length = slots.length := by
  have hs1 : source < slots.length := by omega
  refine ⟨_, _, _, slots[source], add_edge_ok g slots source dest w hv hs1 hm, rfl,
    List.getElem?_eq_getElem hs1, ?_, ?_, rfl, by simp⟩
  · simp [List.getElem?_set_self hs1, List.getD_eq_getElem?_getD, List.getElem?_eq_getElem hs1]
  · intro i hi
    exact List.getElem?_set_ne (Ne.symm hi)

/-- C2 at the store `{[1], []}` with the edge `(0, 2)`. -/
theorem add_edge_mutates_one_slot_witness :
    ∃ g1 slots1 w1 old, add_edge ⟨2, some [[1], []]⟩ 0 2 World.init = Outcome.ret g1 w1 ∧
      g1.v_array = some slots1 ∧
      [[1], []][0]? = some old ∧ slots1[0]? = some (2 :: old) ∧
      (∀ i, i ≠ 0 → slots1[i]? = [[1], []][i]?) ∧
      g1.n_vertices = 2 ∧ slots1.length = 2 :=
  add_edge_mutates_one_slot ⟨2, some [[1], []]⟩ [[1], []] 0 2 World.init rfl rfl
    (by decide) (by decide)

/-- C3 fails: on the one-vertex store made by `graph_new(1)`, `add_edge(g, 0, 5)` with
`dest = 5 ≥ 1` returns normally and has stored the edge. -/
theorem add_edge_out_of_range_dest_stored :
    (graph_new 1 >>= fun g => add_edge g 0 5) World.init
      = Outcome.ret ⟨1, some [[5]]⟩ World.init ∧
    graph_new 1 World.init = Outcome.ret ⟨1, some [[]]⟩ World.init := by
  constructor <;> rfl

/-- C3 as amended: `add_edge` checks neither index. With `source < n_vertices` it returns
normally with `dest` prepended to slot `source` whatever `dest` is (also `dest ≥
n_vertices`), when its allocation succeeds; with `source ≥ n_vertices` it indexes
`v_array` beyond its slots, which has no defined behaviour. -/
theorem add_edge_no_range_check (g : graph) (slots : List adjlist) (source dest : Nat)
    (w : World) (hv : g.v_array = some slots) (hlen : slots.length = g.n_vertices) :
    (source < g.n_vertices → w.heap.head? ≠ some false →
      ∃ old, slots[source]? = some old ∧
        add_edge g source dest w =
          Outcome.ret ⟨g.n_vertices, some (slots.set source (dest :: old))⟩
            { w with heap := w.heap.tail }) ∧
    (g.n_vertices ≤ source → add_edge g source dest w = Outcome.undef) := by
  constructor
  · intro hs hm
    have hs1 : source < slots.length := by omega
    refine ⟨slots[source], List.getElem?_eq_getElem hs1, ?_⟩
    rw [add_edge_ok g slots source dest w hv hs1 hm]
    simp [List.getD_eq_getElem?_getD, List.getElem?_eq_getElem hs1]
  · intro hs
    have hnone : slots[source]? = none := List.getElem?_eq_none (by omega)
    simp [add_edge, bind_apply, Prog.bind, load_slot, hv, hnone]

/-- C3 as amended, at the store `{[]}`: `dest = 5` is stored from source 0, and source 1
is outside the slots. -/
theorem add_edge_no_range_check_witness :
    (∃ old, [([] : adjlist)][0]? = some old ∧
      add_edge ⟨1, some [[]]⟩ 0 5 World.init =
        Outcome.ret ⟨1, some ([[]].set 0 (5 :: old))⟩
          { World.init with heap := World.init.heap.tail }) ∧
    add_edge ⟨1, some [[]]⟩ 1 0 World.init = Outcome.undef :=
  ⟨(add_edge_no_range_check ⟨1, some [[]]⟩ [[]] 0 5 World.init rfl rfl).1
      (by decide) (by decide),
    (add_edge_no_range_check ⟨1, some [[]]⟩ [[]] 1 0 World.init rfl rfl).2 (by decide)⟩

/-- C4: when its two allocations succeed, `graph_new(v)` returns a store whose
`n_vertices` is `v` and whose `v` slots are all the empty chain. -/
theorem graph_new_slots_empty (v : Nat) (w : World) (hv : v ≤ UINT_MAX)
    (hm : ∀ b ∈ w.heap.take 2, b = true) :
    ∃ g slots w1, graph_new v w = Outcome.ret g w1 ∧ g.n_vertices = v ∧
      g.v_array = some slots ∧ slots.length = v ∧ ∀ c ∈ slots, c = [] := by
  refine ⟨_, _, _, graph_new_ok v w hv hm, rfl, rfl, by simp, ?_⟩
  intro c hc
  exact (List.mem_replicate.mp hc).2

/-- C4 at `v = 7`, as `main` calls it. -/
theorem graph_new_slots_empty_witness :
    ∃ g slots w1, graph_new 7 World.init = Outcome.ret g w1 ∧ g.n_vertices = 7 ∧
      g.v_array = some slots ∧ slots.length = 7 ∧ ∀ c ∈ slots, c = [] :=
  graph_new_slots_empty 7 World.init (by decide) (by decide)

/-! ## Facts about the two views -/

theorem vertex_tos_ok (n : Nat) (w : World) (h : n ≤ 6) :
    vertex_tos n w = Outcome.ret (label n) w := by
  interval_cases n <;> rfl

theorem vertex_tos_fail (n : Nat) (w : World) (h : 7 ≤ n) :
    vertex_tos n w = Outcome.exited 1
      { w with stderr := w.stderr ++ "error (vertex_tos): no string representation for vertex\n" } := by
  obtain ⟨k, rfl⟩ : ∃ k, n = k + 7 := ⟨n - 7, by omega⟩
  rfl

theorem cat_cons (s : String) (l : List String) : cat (s :: l) = s ++ cat l := rfl

theorem cat_nil : cat [] = "" := rfl

theorem al_graph_print_chain_ok (xs : adjlist) :
    ∀ w : World, (∀ d ∈ xs, d ≤ 6) →
      al_graph_print_chain xs w = Outcome.ret ()
        { w with stdout := w.stdout ++ cat (xs.map fun d => " " ++ label d ++ "->") } := by
  induction xs with
  | nil => intro w _; simp [al_graph_print_chain, pure_apply, cat_nil]
  | cons d xs ih =>
    intro w h
    have hd : d ≤ 6 := h d (by simp)
    simp only [al_graph_print_chain, bind_apply, Prog.bind, vertex_tos_ok d w hd, printf]
    rw [ih _ (fun x hx => h x (by simp [hx]))]
    simp [cat_cons, String.append_assoc]

theorem al_graph_print_chain_ret (xs : adjlist) :
    ∀ (w w1 : World) (u : Unit), al_graph_print_chain xs w = Outcome.ret u w1 →
      ∀ d ∈ xs, d ≤ 6 := by
  induction xs with
  | nil => intro w w1 u _ d hd; simp at hd
  | cons x xs ih =>
    intro w w1 u h d hd
    by_cases hx : x ≤ 6
    · simp only [al_graph_print_chain, bind_apply, Prog.bind, vertex_tos_ok x w hx, printf] at h
      rcases List.mem_cons.mp hd with rfl | hmem
      · exact hx
      · exact ih _ _ _ h d hmem
    · simp [al_graph_print_chain, bind_apply, Prog.bind, vertex_tos_fail x w (by omega)] at h

theorem load_slot_eq (g : graph) (i : Nat) (w : World) :
    load_slot g i w =
      match slot_at g i with
      | some c => Outcome.ret c w
      | none => Outcome.undef := by
  unfold load_slot slot_at
  cases g.v_array with
  | none => rfl
  | some slots => cases slots[i]? <;> rfl

theorem al_graph_print_loop_ok (g : graph) :
    ∀ (r v : Nat) (w : World),
      (∀ i, v ≤ i → i < v + r → i ≤ 6 ∧ ∃ c, slot_at g i = some c ∧ ∀ d ∈ c, d ≤ 6) →
      al_graph_print_loop g r v w = Outcome.ret ()
        { w with stdout := (w.stdout ++
            cat ((List.range' v r).map fun i => adj_entry (label i) ((chain_at g i).map label))) } := by
  intro r
  induction r with
  | zero => intro v w _; simp [al_graph_print_loop, pure_apply, cat_nil]
  | succ r ih =>
    intro v w h
    obtain ⟨hv, c, hc, hvals⟩ := h v (Nat.le_refl v) (by omega)
    simp only [al_graph_print_loop, bind_apply, Prog.bind, load_slot_eq, hc,
      vertex_tos_ok v w hv, printf, al_graph_print_chain_ok c _ hvals]
    rw [ih (v + 1) _ (fun i h1 h2 => h i (by omega) (by omega))]
    simp [List.range'_succ, cat_cons, adj_entry, chain_at, hc, String.append_assoc,
      Function.comp_def]

theorem al_graph_print_loop_ret (g : graph) :
    ∀ (r v : Nat) (w w1 : World) (u : Unit), al_graph_print_loop g r v w = Outcome.ret u w1 →
      ∀ i, v ≤ i → i < v + r → i ≤ 6 ∧ ∃ c, slot_at g i = some c ∧ ∀ d ∈ c, d ≤ 6 := by
  intro r
  induction r with
  | zero => intro v w w1 u _ i h1 h2; omega
  | succ r ih =>
    intro v w w1 u h
    simp only [al_graph_print_loop, bind_apply, Prog.bind, load_slot_eq] at h
    cases hc : slot_at g v with
    | none => simp [hc] at h
    | some c =>
      simp only [hc] at h
      by_cases hv : v ≤ 6
      · simp only [vertex_tos_ok v w hv, printf] at h
        cases hch : al_graph_print_chain c
            ⟨w.stdout ++ ("Adjacency list for vertex " ++ label v ++ ": \n \x7b "), w.stderr, w.heap⟩ with
        | undef => simp [hch] at h
        | exited s w2 => simp [hch] at h
        | ret u2 w2 =>
          simp only [hch] at h
          have hvals := al_graph_print_chain_ret c _ _ _ hch
          intro i h1 h2
          by_cases hi : i = v
          · subst hi; exact ⟨hv, c, hc, hvals⟩
          · exact ih (v + 1) _ _ _ h i (by omega) (by omega)
      · simp [vertex_tos_fail v w (by omega)] at h

theorem graph_print_chain_ok (v : Nat) (hv : v ≤ 6) (xs : adjlist) :
    ∀ w : World, (∀ d ∈ xs, d ≤ 6) →
      graph_print_chain v xs w = Outcome.ret ()
        { w with stdout := (w.stdout ++
            cat (xs.map fun d => " (" ++ label v ++ ", " ++ label d ++ ") ;")) } := by
  induction xs with
  | nil => intro w _; simp [graph_print_chain, pure_apply, cat_nil]
  | cons d xs ih =>
    intro w h
    have hd : d ≤ 6 := h d (by simp)
    simp only [graph_print_chain, bind_apply, Prog.bind, vertex_tos_ok v w hv,
      vertex_tos_ok d w hd, printf]
    rw [ih _ (fun x hx => h x (by simp [hx]))]
    simp [cat_cons, String.append_assoc]

theorem graph_print_chain_ret (v : Nat) (hv : v ≤ 6) (xs : adjlist) :
    ∀ (w w1 : World) (u : Unit), graph_print_chain v xs w = Outcome.ret u w1 →
      ∀ d ∈ xs, d ≤ 6 := by
  induction xs with
  | nil => intro w w1 u _ d hd; simp at hd
  | cons x xs ih =>
    intro w w1 u h d hd
    by_cases hx : x ≤ 6
    · simp only [graph_print_chain, bind_apply, Prog.bind, vertex_tos_ok v w hv,
        vertex_tos_ok x w hx, printf] at h
      rcases List.mem_cons.mp hd with rfl | hmem
      · exact hx
      · exact ih _ _ _ h d hmem
    · simp [graph_print_chain, bind_apply, Prog.bind, vertex_tos_ok v w hv,
        vertex_tos_fail x w (by omega)] at h

theorem graph_print_loop_ok (g : graph) :
    ∀ (r v : Nat) (w : World),
      (∀ i, v ≤ i → i < v + r → i ≤ 6 ∧ ∃ c, slot_at g i = some c ∧ ∀ d ∈ c, d ≤ 6) →
      graph_print_loop g r v w = Outcome.ret ()
        { w with stdout := (w.stdout ++
            cat ((List.range' v r).map fun i =>
              edge_entry (label i) ((chain_at g i).map label))) } := by
  intro r
  induction r with
  | zero => intro v w _; simp [graph_print_loop, pure_apply, cat_nil]
  | succ r ih =>
    intro v w h
    obtain ⟨hv, c, hc, hvals⟩ := h v (Nat.le_refl v) (by omega)
    simp only [graph_print_loop, bind_apply, Prog.bind, load_slot_eq, hc,
      vertex_tos_ok v w hv, printf, graph_print_chain_ok v hv c _ hvals]
    rw [ih (v + 1) _ (fun i h1 h2 => h i (by omega) (by omega))]
    simp [List.range'_succ, cat_cons, edge_entry, chain_at, hc, String.append_assoc,
      Function.comp_def]

theorem graph_print_loop_ret (g : graph) :
    ∀ (r v : Nat) (w w1 : World) (u : Unit), graph_print_loop g r v w = Outcome.ret u w1 →
      ∀ i, v ≤ i → i < v + r → i ≤ 6 ∧ ∃ c, slot_at g i = some c ∧ ∀ d ∈ c, d ≤ 6 := by
  intro r
  induction r with
  | zero => intro v w w1 u _ i h1 h2; omega
  | succ r ih =>
    intro v w w1 u h
    simp only [graph_print_loop, bind_apply, Prog.bind, load_slot_eq] at h
    cases hc : slot_at g v with
    | none => simp [hc] at h
    | some c =>
      simp only [hc] at h
      by_cases hv : v ≤ 6
      · simp only [vertex_tos_ok v w hv, printf] at h
        cases hch : graph_print_chain v c
            ⟨w.stdout ++ ("Vertex " ++ label v ++ " has these outgoing edges: \n"),
              w.stderr, w.heap⟩ with
        | undef => simp [hch] at h
        | exited s w2 => simp [hch] at h
        | ret u2 w2 =>
          simp only [hch] at h
          have hvals := graph_print_chain_ret v hv c _ _ _ hch
          intro i h1 h2
          by_cases hi : i = v
          · subst hi; exact ⟨hv, c, hc, hvals⟩
          · exact ih (v + 1) _ _ _ h i (by omega) (by omega)
      · simp [vertex_tos_fail v w (by omega)] at h

/-! ## Claims about the views and the invariant -/

theorem showable_of_vals (g : graph) (slots : List adjlist) (hv : g.v_array = some slots)
    (hlen : slots.length = g.n_vertices) (hn : g.n_vertices ≤ 7)
    (hvals : ∀ c ∈ slots, ∀ d ∈ c, d ≤ 6) :
    ∀ i, 0 ≤ i → i < 0 + g.n_vertices →
      i ≤ 6 ∧ ∃ c, slot_at g i = some c ∧ ∀ d ∈ c, d ≤ 6 := by
  intro i _ hi
  have hi1 : i < slots.length := by omega
  refine ⟨by omega, slots[i], ?_, hvals _ (List.getElem_mem hi1)⟩
  simp [slot_at, hv, List.getElem?_eq_getElem hi1]

theorem chain_at_eq (g : graph) (slots : List adjlist) (hv : g.v_array = some slots)
    (i : Nat) : chain_at g i = slots.getD i [] := by
  simp [chain_at, slot_at, hv, List.getD_eq_getElem?_getD]

/-- C5 fails: the adjacency view of `graph_new(8)` does not complete. It writes the
entries of the vertices 0 to 6 and then the process exits with status 1 at the label
lookup for vertex 7. -/
theorem al_graph_print_graph_new_8_exits :
    (graph_new 8 >>= fun g => al_graph_print g) World.init =
      Outcome.exited 1
        { stdout := "\n******** ADJACENCY LIST REPRESENTATION ********:\n\nAdjacency list for vertex A: \n \x7b  \x7d\nAdjacency list for vertex B: \n \x7b  \x7d\nAdjacency list for vertex C: \n \x7b  \x7d\nAdjacency list for vertex D: \n \x7b  \x7d\nAdjacency list for vertex E: \n \x7b  \x7d\nAdjacency list for vertex F: \n \x7b  \x7d\nAdjacency list for vertex G: \n \x7b  \x7d\n",
          stderr := "error (vertex_tos): no string representation for vertex\n",
          heap := [] } := by
  decide!

/-- C5 as amended: for every vertex count `n ≤ 7` the adjacency view of `graph_new(n)`
completes and writes the banner and then exactly `n` vertex entries, for the vertices
`0, ..., n - 1` in this order, each with an empty bracket pair and no destination. -/
theorem al_graph_print_graph_new (n : Nat) (w : World) (hn : n ≤ 7)
    (hm : ∀ b ∈ w.heap.take 2, b = true) :
    (graph_new n >>= fun g => al_graph_print g) w =
      Outcome.ret ()
        { stdout := w.stdout ++ "\n******** ADJACENCY LIST REPRESENTATION ********:\n\n" ++
            cat ((List.range n).map fun v =>
              "Adjacency list for vertex " ++ label v ++ ": \n \x7b  \x7d\n"),
          stderr := w.stderr,
          heap := w.heap.drop 2 } := by
  have hnew := graph_new_ok n w (by simp only [UINT_MAX]; omega) hm
  have hshow := showable_of_vals ⟨n, some (List.replicate n [])⟩ (List.replicate n []) rfl
    (by simp) hn (fun c hc d hd => by
      rw [(List.mem_replicate.mp hc).2] at hd
      simp at hd)
  simp only [bind_apply, Prog.bind, hnew, al_graph_print, printf,
    al_graph_print_loop_ok _ _ _ _ hshow]
  have hrow : ∀ v ∈ List.range' 0 n,
      adj_entry (label v) ((chain_at ⟨n, some (List.replicate n [])⟩ v).map label) =
        "Adjacency list for vertex " ++ label v ++ ": \n \x7b  \x7d\n" := by
    intro v hv
    have hlt : v < n := by simpa using (List.mem_range'_1.mp hv).2
    rw [chain_at_eq _ _ rfl]
    simp [adj_entry, cat_nil, List.getD_eq_getElem?_getD, List.getElem?_replicate, hlt,
      String.append_assoc]
  rw [List.map_congr_left hrow, List.range_eq_range']

/-- C5 as amended, the scenario `create(1)`: the banner and one entry for vertex A with
an empty bracket pair. -/
theorem al_graph_print_graph_new_witness :
    (graph_new 1 >>= fun g => al_graph_print g) World.init =
      Outcome.ret ()
        { stdout := "\n******** ADJACENCY LIST REPRESENTATION ********:\n\nAdjacency list for vertex A: \n \x7b  \x7d\n",
          stderr := "",
          heap := [] } :=
  (al_graph_print_graph_new 1 World.init (by decide) (by decide)).trans rfl

/-- C6: `vertex_tos` returns the letters A to G for the indices 0 to 6; for every index
from 7 on it returns no label: it writes a diagnostic to `stderr` and ends the process
with status 1. So it returns a label exactly for the indices up to 6. -/
theorem vertex_tos_labels (w : World) :
    vertex_tos 0 w = Outcome.ret "A" w ∧ vertex_tos 1 w = Outcome.ret "B" w ∧
    vertex_tos 2 w = Outcome.ret "C" w ∧ vertex_tos 3 w = Outcome.ret "D" w ∧
    vertex_tos 4 w = Outcome.ret "E" w ∧ vertex_tos 5 w = Outcome.ret "F" w ∧
    vertex_tos 6 w = Outcome.ret "G" w ∧
    (∀ n, 7 ≤ n → vertex_tos n w = Outcome.exited 1
      { w with stderr :=
          w.stderr ++ "error (vertex_tos): no string representation for vertex\n" }) ∧
    (∀ n, (∃ s w1, vertex_tos n w = Outcome.ret s w1) ↔ n ≤ 6) := by
  refine ⟨rfl, rfl, rfl, rfl, rfl, rfl, rfl, fun n hn => vertex_tos_fail n w hn, ?_⟩
  intro n
  constructor
  · rintro ⟨s, w1, h⟩
    by_contra hn
    rw [vertex_tos_fail n w (by omega)] at h
    cases h
  · intro hn
    exact ⟨label n, w, vertex_tos_ok n w hn⟩

/-- C6 at index 7: no label, a diagnostic and exit status 1. -/
theorem vertex_tos_labels_witness :
    vertex_tos 7 World.init = Outcome.exited 1
      { stdout := "", stderr := "error (vertex_tos): no string representation for vertex\n",
        heap := [] } :=
  (vertex_tos_labels World.init).2.2.2.2.2.2.2.1 7 (by decide)

/-- C7: when both views complete on a store, both show the same rows: for the vertices
in increasing index order, the adjacency view writes for vertex `v` the labels of `v`'s
chain from head to tail, and the edge view writes for `v` the pairs made of the label
of `v` and these same labels in the same order. -/
theorem views_agree (g : graph) (w wa we : World)
    (ha : al_graph_print g w = Outcome.ret () wa)
    (he : graph_print g w = Outcome.ret () we) :
    (rows g).length = g.n_vertices ∧
    (∀ v, v < g.n_vertices → (rows g)[v]? = some (label v, (chain_at g v).map label)) ∧
    wa.stdout = w.stdout ++ adj_banner ++ cat ((rows g).map fun r =>
      "Adjacency list for vertex " ++ r.1 ++ ": \n \x7b " ++
        cat (r.2.map fun d => " " ++ d ++ "->") ++ " \x7d\n") ∧
    we.stdout = w.stdout ++ edge_banner ++ cat ((rows g).map fun r =>
      "Vertex " ++ r.1 ++ " has these outgoing edges: \n" ++
        cat (r.2.map fun d => " (" ++ r.1 ++ ", " ++ d ++ ") ;") ++ "\n") := by
  simp only [al_graph_print, bind_apply, Prog.bind, printf] at ha
  simp only [graph_print, bind_apply, Prog.bind, printf] at he
  have hsa := al_graph_print_loop_ret g _ _ _ _ _ ha
  rw [al_graph_print_loop_ok g _ _ _ hsa] at ha
  rw [graph_print_loop_ok g _ _ _ hsa] at he
  injection ha with _ ha
  injection he with _ he
  subst ha he
  refine ⟨by simp [rows], ?_, ?_, ?_⟩
  · intro v hv
    simp [rows, List.getElem?_range hv, hv]
  · simp [rows, List.range_eq_range', adj_banner, adj_entry, String.append_assoc,
      Function.comp_def]
  · simp [rows, List.range_eq_range', edge_banner, edge_entry, String.append_assoc,
      Function.comp_def]

/-- C7 on the store `{[1], []}`: both views complete and show the rows `(A, [B])` and
`(B, [])`. -/
theorem views_agree_witness :
    (rows ⟨2, some [[1], []]⟩).length = 2 ∧
    (∀ v, v < 2 → (rows ⟨2, some [[1], []]⟩)[v]? =
      some (label v, (chain_at ⟨2, some [[1], []]⟩ v).map label)) ∧
    "\n******** ADJACENCY LIST REPRESENTATION ********:\n\nAdjacency list for vertex A: \n \x7b  B-> \x7d\nAdjacency list for vertex B: \n \x7b  \x7d\n"
      = "" ++ adj_banner ++ cat ((rows ⟨2, some [[1], []]⟩).map fun r =>
      "Adjacency list for vertex " ++ r.1 ++ ": \n \x7b " ++
        cat (r.2.map fun d => " " ++ d ++ "->") ++ " \x7d\n") ∧
    "\n******** GRAPH VERTICES & EDGES REPRESENTATION ********:\n\nVertex A has these outgoing edges: \n (A, B) ;\nVertex B has these outgoing edges: \n\n"
      = "" ++ edge_banner ++ cat ((rows ⟨2, some [[1], []]⟩).map fun r =>
      "Vertex " ++ r.1 ++ " has these outgoing edges: \n" ++
        cat (r.2.map fun d => " (" ++ r.1 ++ ", " ++ d ++ ") ;") ++ "\n") :=
  views_agree ⟨2, some [[1], []]⟩ World.init
    ⟨"\n******** ADJACENCY LIST REPRESENTATION ********:\n\nAdjacency list for vertex A: \n \x7b  B-> \x7d\nAdjacency list for vertex B: \n \x7b  \x7d\n", "", []⟩
    ⟨"\n******** GRAPH VERTICES & EDGES REPRESENTATION ********:\n\nVertex A has these outgoing edges: \n (A, B) ;\nVertex B has these outgoing edges: \n\n", "", []⟩
    (by decide!) (by decide!)

/-- C8: on a store with `n_vertices ≤ 7` slots whose chain values are all at most 6,
`al_graph_print` returns after writing exactly the banner and then, for each vertex
`v = 0, ..., n_vertices - 1` in this order, the header with the label of `v`, an
opening bracket, for each value `d` of slot `v` from head to tail a blank, the label of
`d` and a connector, and the closing bracket; the labels are those of `vertex_tos`. -/
theorem al_graph_print_text (g : graph) (slots : List adjlist) (w : World)
    (hv : g.v_array = some slots) (hlen : slots.length = g.n_vertices)
    (hn : g.n_vertices ≤ 7) (hvals : ∀ c ∈ slots, ∀ d ∈ c, d ≤ 6) :
    al_graph_print g w = Outcome.ret ()
      { w with stdout := (w.stdout ++
          "\n******** ADJACENCY LIST REPRESENTATION ********:\n\n" ++
          cat ((List.range g.n_vertices).map fun v =>
            "Adjacency list for vertex " ++ label v ++ ": \n \x7b " ++
              cat ((slots.getD v []).map fun d => " " ++ label d ++ "->") ++ " \x7d\n")) } ∧
    ∀ (k : Nat) (w0 : World), k ≤ 6 → vertex_tos k w0 = Outcome.ret (label k) w0 := by
  refine ⟨?_, fun k w0 hk => vertex_tos_ok k w0 hk⟩
  have hshow := showable_of_vals g slots hv hlen hn hvals
  simp only [al_graph_print, bind_apply, Prog.bind, printf,
    al_graph_print_loop_ok g _ _ _ hshow]
  simp [List.range_eq_range', adj_entry, chain_at_eq g slots hv, String.append_assoc,
    Function.comp_def]

/-- C8 on the store `{[1], []}`. -/
theorem al_graph_print_text_witness :
    al_graph_print ⟨2, some [[1], []]⟩ World.init = Outcome.ret ()
      { stdout := "\n******** ADJACENCY LIST REPRESENTATION ********:\n\nAdjacency list for vertex A: \n \x7b  B-> \x7d\nAdjacency list for vertex B: \n \x7b  \x7d\n",
        stderr := "", heap := [] } :=
  (al_graph_print_text ⟨2, some [[1], []]⟩ [[1], []] World.init rfl rfl
    (by decide) (by decide)).1.trans (by decide!)

/-- C9: on a store with `n_vertices ≤ 7` slots whose chain values are all at most 6,
`graph_print` returns after writing exactly the banner and then, for each vertex
`v = 0, ..., n_vertices - 1` in this order, the header line with the label of `v`, for
each value `d` of slot `v` from head to tail the pair token of the labels of `v` and
`d`, and a line break; the labels are those of `vertex_tos`. A vertex without outgoing
edges gets its header line and the line break. -/
theorem graph_print_text (g : graph) (slots : List adjlist) (w : World)
    (hv : g.v_array = some slots) (hlen : slots.length = g.n_vertices)
    (hn : g.n_vertices ≤ 7) (hvals : ∀ c ∈ slots, ∀ d ∈ c, d ≤ 6) :
    graph_print g w = Outcome.ret ()
      { w with stdout := (w.stdout ++
          "\n******** GRAPH VERTICES & EDGES REPRESENTATION ********:\n\n" ++
          cat ((List.range g.n_vertices).map fun v =>
            "Vertex " ++ label v ++ " has these outgoing edges: \n" ++
              cat ((slots.getD v []).map fun d =>
                " (" ++ label v ++ ", " ++ label d ++ ") ;") ++ "\n")) } ∧
    ∀ (k : Nat) (w0 : World), k ≤ 6 → vertex_tos k w0 = Outcome.ret (label k) w0 := by
  refine ⟨?_, fun k w0 hk => vertex_tos_ok k w0 hk⟩
  have hshow := showable_of_vals g slots hv hlen hn hvals
  simp only [graph_print, bind_apply, Prog.bind, printf,
    graph_print_loop_ok g _ _ _ hshow]
  simp [List.range_eq_range', edge_entry, chain_at_eq g slots hv, String.append_assoc,
    Function.comp_def]

/-- C9 on the store `{[1], []}`: vertex B has no outgoing edge. -/
theorem graph_print_text_witness :
    graph_print ⟨2, some [[1], []]⟩ World.init = Outcome.ret ()
      { stdout := "\n******** GRAPH VERTICES & EDGES REPRESENTATION ********:\n\nVertex A has these outgoing edges: \n (A, B) ;\nVertex B has these outgoing edges: \n\n",
        stderr := "", heap := [] } :=
  (graph_print_text ⟨2, some [[1], []]⟩ [[1], []] World.init rfl rfl
    (by decide) (by decide)).1.trans (by decide!)

theorem WF_add_edge (g : graph) (slots : List adjlist) (source dest : Nat)
    (hv : g.v_array = some slots) (hwf : WF g) (hd : dest < g.n_vertices) :
    WF ⟨g.n_vertices, some (slots.set source (dest :: slots.getD source []))⟩ := by
  simp only [WF, hv] at hwf
  obtain ⟨hlen, hvals⟩ := hwf
  simp only [WF]
  refine ⟨by simpa using hlen, ?_⟩
  intro c hc x hx
  rcases List.mem_or_eq_of_mem_set hc with hmem | rfl
  · exact hvals c hmem x hx
  · rcases List.mem_cons.mp hx with rfl | hx1
    · exact hd
    · by_cases hs : source < slots.length
      · rw [List.getD_eq_getElem?_getD, List.getElem?_eq_getElem hs] at hx1
        exact hvals _ (List.getElem_mem hs) x hx1
      · rw [List.getD_eq_getElem?_getD, List.getElem?_eq_none (by omega)] at hx1
        simp at hx1

theorem WF_add_edges (edges : List (Nat × Nat)) :
    ∀ (g : graph) (w : World), WF g → (∀ e ∈ edges, e.1 < g.n_vertices ∧ e.2 < g.n_vertices) →
      allocs_ok w → ∃ g1 w1, add_edges g edges w = Outcome.ret g1 w1 ∧ WF g1 ∧
        g1.n_vertices = g.n_vertices := by
  induction edges with
  | nil => intro g w hwf _ _; exact ⟨g, w, rfl, hwf, rfl⟩
  | cons e rest ih =>
    intro g w hwf he hw
    obtain ⟨s, d⟩ := e
    obtain ⟨hs, hd⟩ := he (s, d) (by simp)
    cases hv : g.v_array with
    | none => simp [WF, hv] at hwf
    | some slots =>
      have hlen : slots.length = g.n_vertices := by
        simp only [WF, hv] at hwf
        exact hwf.1
      obtain ⟨g1, w1, hrun, hwf1, hn1⟩ :=
        ih ⟨g.n_vertices, some (slots.set s (d :: slots.getD s []))⟩
          { w with heap := w.heap.tail } (WF_add_edge g slots s d hv hwf hd)
          (fun e hmem => he e (by simp [hmem])) (allocs_ok_tail w hw)
      refine ⟨g1, w1, ?_, hwf1, hn1⟩
      simp only [add_edges, bind_apply, Prog.bind,
        add_edge_ok g slots s d w hv (by omega) (allocs_ok_head w hw)]
      exact hrun

/-- C10: the store invariant `WF` holds for the store `graph_new(n)` returns, `add_edge`
with `source` and `dest` below `n_vertices` returns a store that satisfies it whenever
its argument does, and so every store reached from `graph_new(n)` by `add_edge` calls
with indices below `n` satisfies it (allocations succeeding). -/
theorem WF_reachable :
    (∀ (n : Nat) (w : World), n ≤ UINT_MAX → (∀ b ∈ w.heap.take 2, b = true) →
      ∃ g w1, graph_new n w = Outcome.ret g w1 ∧ WF g) ∧
    (∀ (g : graph) (source dest : Nat) (w : World), WF g →
      source < g.n_vertices → dest < g.n_vertices → w.heap.head? ≠ some false →
      ∃ g1 w1, add_edge g source dest w = Outcome.ret g1 w1 ∧ WF g1) ∧
    (∀ (n : Nat) (edges : List (Nat × Nat)) (w : World), n ≤ UINT_MAX → allocs_ok w →
      (∀ e ∈ edges, e.1 < n ∧ e.2 < n) →
      ∃ g w1, (graph_new n >>= fun g0 => add_edges g0 edges) w = Outcome.ret g w1 ∧ WF g) := by
  have hnew : ∀ n : Nat, WF ⟨n, some (List.replicate n [])⟩ := by
    intro n
    simp only [WF]
    refine ⟨by simp, ?_⟩
    intro c hc x hx
    rw [(List.mem_replicate.mp hc).2] at hx
    simp at hx
  refine ⟨?_, ?_, ?_⟩
  · intro n w hn hm
    exact ⟨_, _, graph_new_ok n w hn hm, hnew n⟩
  · intro g source dest w hwf hs hd hm
    cases hv : g.v_array with
    | none => simp [WF, hv] at hwf
    | some slots =>
      have hlen : slots.length = g.n_vertices := by
        simp only [WF, hv] at hwf
        exact hwf.1
      exact ⟨_, _, add_edge_ok g slots source dest w hv (by omega) hm,
        WF_add_edge g slots source dest hv hwf hd⟩
  · intro n edges w hn hw he
    have h2 : ∀ b ∈ w.heap.take 2, b = true := fun b hb => hw b (List.mem_of_mem_take hb)
    have hw2 : allocs_ok { w with heap := w.heap.drop 2 } :=
      fun b hb => hw b (List.mem_of_mem_drop hb)
    obtain ⟨g1, w1, hrun, hwf1, _⟩ :=
      WF_add_edges edges ⟨n, some (List.replicate n [])⟩ _ (hnew n) he hw2
    refine ⟨g1, w1, ?_, hwf1⟩
    simp only [bind_apply, Prog.bind, graph_new_ok n w hn h2]
    exact hrun

/-- C10 on the run of `main`: the store after the seven inserts on `graph_new(7)`
satisfies the invariant. -/
theorem WF_reachable_witness :
    ∃ g w1, (graph_new 7 >>= fun g0 =>
        add_edges g0 [(0, 1), (0, 2), (2, 3), (3, 4), (3, 6), (4, 5), (6, 5)]) World.init
        = Outcome.ret g w1 ∧ WF g :=
  WF_reachable.2.2 7 [(0, 1), (0, 2), (2, 3), (3, 4), (3, 6), (4, 5), (6, 5)] World.init
    (by decide) (by decide) (by decide)

/-! ## Claims about when the views complete -/

theorem al_graph_print_chain_total (xs : adjlist) :
    ∀ w : World, (∃ w1, al_graph_print_chain xs w = Outcome.ret () w1) ∨
      ∃ w1, al_graph_print_chain xs w = Outcome.exited 1 w1 := by
  induction xs with
  | nil => intro w; exact Or.inl ⟨w, rfl⟩
  | cons x xs ih =>
    intro w
    by_cases hx : x ≤ 6
    · simp only [al_graph_print_chain, bind_apply, Prog.bind, vertex_tos_ok x w hx, printf]
      exact ih _
    · right
      simp [al_graph_print_chain, bind_apply, Prog.bind, vertex_tos_fail x w (by omega)]

theorem al_graph_print_loop_total (g : graph) :
    ∀ (r v : Nat) (w : World), (∀ i, v ≤ i → i < v + r → ∃ c, slot_at g i = some c) →
      (∃ w1, al_graph_print_loop g r v w = Outcome.ret () w1) ∨
        ∃ w1, al_graph_print_loop g r v w = Outcome.exited 1 w1 := by
  intro r
  induction r with
  | zero => intro v w _; exact Or.inl ⟨w, rfl⟩
  | succ r ih =>
    intro v w h
    obtain ⟨c, hc⟩ := h v (Nat.le_refl v) (by omega)
    simp only [al_graph_print_loop, bind_apply, Prog.bind, load_slot_eq, hc]
    by_cases hv : v ≤ 6
    · simp only [vertex_tos_ok v w hv, printf]
      rcases al_graph_print_chain_total c
          ⟨w.stdout ++ ("Adjacency list for vertex " ++ label v ++ ": \n \x7b "),
            w.stderr, w.heap⟩ with ⟨w1, h1⟩ | ⟨w1, h1⟩
      · simp only [h1]
        exact ih (v + 1) _ (fun i h2 h3 => h i (by omega) (by omega))
      · right
        simp [h1]
    · right
      simp [vertex_tos_fail v w (by omega)]

theorem graph_print_chain_total (v : Nat) (hv : v ≤ 6) (xs : adjlist) :
    ∀ w : World, (∃ w1, graph_print_chain v xs w = Outcome.ret () w1) ∨
      ∃ w1, graph_print_chain v xs w = Outcome.exited 1 w1 := by
  induction xs with
  | nil => intro w; exact Or.inl ⟨w, rfl⟩
  | cons x xs ih =>
    intro w
    by_cases hx : x ≤ 6
    · simp only [graph_print_chain, bind_apply, Prog.bind, vertex_tos_ok v w hv,
        vertex_tos_ok x w hx, printf]
      exact ih _
    · right
      simp [graph_print_chain, bind_apply, Prog.bind, vertex_tos_ok v w hv,
        vertex_tos_fail x w (by omega)]

theorem graph_print_loop_total (g : graph) :
    ∀ (r v : Nat) (w : World), (∀ i, v ≤ i → i < v + r → ∃ c, slot_at g i = some c) →
      (∃ w1, graph_print_loop g r v w = Outcome.ret () w1) ∨
        ∃ w1, graph_print_loop g r v w = Outcome.exited 1 w1 := by
  intro r
  induction r with
  | zero => intro v w _; exact Or.inl ⟨w, rfl⟩
  | succ r ih =>
    intro v w h
    obtain ⟨c, hc⟩ := h v (Nat.le_refl v) (by omega)
    simp only [graph_print_loop, bind_apply, Prog.bind, load_slot_eq, hc]
    by_cases hv : v ≤ 6
    · simp only [vertex_tos_ok v w hv, printf]
      rcases graph_print_chain_total v hv c
          ⟨w.stdout ++ ("Vertex " ++ label v ++ " has these outgoing edges: \n"),
            w.stderr, w.heap⟩ with ⟨w1, h1⟩ | ⟨w1, h1⟩
      · simp only [h1]
        exact ih (v + 1) _ (fun i h2 h3 => h i (by omega) (by omega))
      · right
        simp [h1]
    · right
      simp [vertex_tos_fail v w (by omega)]

theorem vals_of_showable (g : graph) (slots : List adjlist) (hv : g.v_array = some slots)
    (hlen : slots.length = g.n_vertices)
    (h : ∀ i, 0 ≤ i → i < 0 + g.n_vertices →
      i ≤ 6 ∧ ∃ c, slot_at g i = some c ∧ ∀ d ∈ c, d ≤ 6) :
    g.n_vertices ≤ 7 ∧ ∀ c ∈ slots, ∀ d ∈ c, d ≤ 6 := by
  constructor
  · by_contra hn
    have := (h 7 (by omega) (by omega)).1
    omega
  · intro c hc d hd
    obtain ⟨i, hi, rfl⟩ := List.getElem_of_mem hc
    obtain ⟨_, c1, hc1, hvals⟩ := h i (by omega) (by omega)
    simp only [slot_at, hv, List.getElem?_eq_getElem hi, Option.some.injEq] at hc1
    subst hc1
    exact hvals d hd

theorem al_graph_print_ret_iff (g : graph) (slots : List adjlist) (w : World)
    (hv : g.v_array = some slots) (hlen : slots.length = g.n_vertices) :
    (∃ w1, al_graph_print g w = Outcome.ret () w1) ↔
      (g.n_vertices ≤ 7 ∧ ∀ c ∈ slots, ∀ d ∈ c, d ≤ 6) := by
  constructor
  · rintro ⟨w1, h⟩
    simp only [al_graph_print, bind_apply, Prog.bind, printf] at h
    exact vals_of_showable g slots hv hlen (al_graph_print_loop_ret g _ _ _ _ _ h)
  · rintro ⟨hn, hvals⟩
    have hshow := showable_of_vals g slots hv hlen hn hvals
    simp only [al_graph_print, bind_apply, Prog.bind, printf,
      al_graph_print_loop_ok g _ _ _ hshow]
    exact ⟨_, rfl⟩

theorem graph_print_ret_iff (g : graph) (slots : List adjlist) (w : World)
    (hv : g.v_array = some slots) (hlen : slots.length = g.n_vertices) :
    (∃ w1, graph_print g w = Outcome.ret () w1) ↔
      (g.n_vertices ≤ 7 ∧ ∀ c ∈ slots, ∀ d ∈ c, d ≤ 6) := by
  constructor
  · rintro ⟨w1, h⟩
    simp only [graph_print, bind_apply, Prog.bind, printf] at h
    exact vals_of_showable g slots hv hlen (graph_print_loop_ret g _ _ _ _ _ h)
  · rintro ⟨hn, hvals⟩
    have hshow := showable_of_vals g slots hv hlen hn hvals
    simp only [graph_print, bind_apply, Prog.bind, printf,
      graph_print_loop_ok g _ _ _ hshow]
    exact ⟨_, rfl⟩

theorem slots_present (g : graph) (slots : List adjlist) (hv : g.v_array = some slots)
    (hlen : slots.length = g.n_vertices) :
    ∀ i, 0 ≤ i → i < 0 + g.n_vertices → ∃ c, slot_at g i = some c := by
  intro i _ hi
  have hi1 : i < slots.length := by omega
  exact ⟨slots[i], by simp [slot_at, hv, List.getElem?_eq_getElem hi1]⟩

/-- C11 fails: `graph_new(2)` followed by `add_edge(g, 0, 5)` gives the store
`{[5], []}`, whose chain value 5 is no vertex id of a two-vertex store, and both views
complete on it (5 has the label F). -/
theorem views_complete_with_value_beyond_n_vertices :
    (graph_new 2 >>= fun g => add_edge g 0 5) World.init
      = Outcome.ret ⟨2, some [[5], []]⟩ World.init ∧
    al_graph_print ⟨2, some [[5], []]⟩ World.init = Outcome.ret ()
      { stdout := "\n******** ADJACENCY LIST REPRESENTATION ********:\n\nAdjacency list for vertex A: \n \x7b  F-> \x7d\nAdjacency list for vertex B: \n \x7b  \x7d\n",
        stderr := "", heap := [] } ∧
    graph_print ⟨2, some [[5], []]⟩ World.init = Outcome.ret ()
      { stdout := "\n******** GRAPH VERTICES & EDGES REPRESENTATION ********:\n\nVertex A has these outgoing edges: \n (A, F) ;\nVertex B has these outgoing edges: \n\n",
        stderr := "", heap := [] } ∧
    ¬ (5 < (⟨2, some [[5], []]⟩ : graph).n_vertices) := by
  decide!

/-- C11 as amended: on a store whose slot sequence has `n_vertices` entries, each of the
two views completes only if every value in every chain is an index `vertex_tos` has a
label for, that is one of 0, ..., 6; the bound is 7 whatever `n_vertices` is. -/
theorem views_complete_only_if_labelled (g : graph) (slots : List adjlist) (w w1 : World)
    (hv : g.v_array = some slots) (hlen : slots.length = g.n_vertices)
    (h : al_graph_print g w = Outcome.ret () w1 ∨ graph_print g w = Outcome.ret () w1) :
    ∀ c ∈ slots, ∀ d ∈ c, d < 7 := by
  intro c hc d hd
  have hle : d ≤ 6 := by
    rcases h with h | h
    · exact ((al_graph_print_ret_iff g slots w hv hlen).mp ⟨w1, h⟩).2 c hc d hd
    · exact ((graph_print_ret_iff g slots w hv hlen).mp ⟨w1, h⟩).2 c hc d hd
  omega

/-- C11 as amended, on the store `{[5], []}`: the adjacency view completes and the
value 5 is below 7. -/
theorem views_complete_only_if_labelled_witness :
    (∃ w1, al_graph_print ⟨2, some [[5], []]⟩ World.init = Outcome.ret () w1) ∧
    ∀ c ∈ [[5], ([] : adjlist)], ∀ d ∈ c, d < 7 :=
  ⟨⟨{ stdout := "\n******** ADJACENCY LIST REPRESENTATION ********:\n\nAdjacency list for vertex A: \n \x7b  F-> \x7d\nAdjacency list for vertex B: \n \x7b  \x7d\n",
      stderr := "", heap := [] }, by decide!⟩,
    views_complete_only_if_labelled ⟨2, some [[5], []]⟩ [[5], []] World.init
      { stdout := "\n******** ADJACENCY LIST REPRESENTATION ********:\n\nAdjacency list for vertex A: \n \x7b  F-> \x7d\nAdjacency list for vertex B: \n \x7b  \x7d\n",
        stderr := "", heap := [] }
      rfl rfl (Or.inl (by decide!))⟩

/-- C15: on a store whose slot sequence has `n_vertices` entries, `al_graph_print`
completes exactly when `n_vertices ≤ 7` and every chain value is at most 6, and so does
`graph_print`; otherwise each of them ends in the `exit(1)` of `vertex_tos`. So a store
with 8 or more vertices is not displayed even without edges, and a store built on
`graph_new(n)` with `n ≤ 7` by `add_edge` calls with indices below `n` is displayed by
both. -/
theorem views_complete_iff :
    (∀ (g : graph) (slots : List adjlist) (w : World), g.v_array = some slots →
      slots.length = g.n_vertices →
      ((∃ w1, al_graph_print g w = Outcome.ret () w1) ↔
        (g.n_vertices ≤ 7 ∧ ∀ c ∈ slots, ∀ d ∈ c, d ≤ 6)) ∧
      ((∃ w1, graph_print g w = Outcome.ret () w1) ↔
        (g.n_vertices ≤ 7 ∧ ∀ c ∈ slots, ∀ d ∈ c, d ≤ 6)) ∧
      (¬ (g.n_vertices ≤ 7 ∧ ∀ c ∈ slots, ∀ d ∈ c, d ≤ 6) →
        (∃ w1, al_graph_print g w = Outcome.exited 1 w1) ∧
        ∃ w1, graph_print g w = Outcome.exited 1 w1) ∧
      (8 ≤ g.n_vertices →
        (¬ ∃ w1, al_graph_print g w = Outcome.ret () w1) ∧
        ¬ ∃ w1, graph_print g w = Outcome.ret () w1)) ∧
    (∀ (n : Nat) (edges : List (Nat × Nat)) (w : World), n ≤ 7 → allocs_ok w →
      (∀ e ∈ edges, e.1 < n ∧ e.2 < n) →
      ∃ g w1 wa we, (graph_new n >>= fun g0 => add_edges g0 edges) w = Outcome.ret g w1 ∧
        al_graph_print g w1 = Outcome.ret () wa ∧ graph_print g w1 = Outcome.ret () we) := by
  constructor
  · intro g slots w hv hlen
    have ha := al_graph_print_ret_iff g slots w hv hlen
    have he := graph_print_ret_iff g slots w hv hlen
    refine ⟨ha, he, ?_, ?_⟩
    · intro hcond
      constructor
      · have htot := al_graph_print_loop_total g g.n_vertices 0
          ⟨w.stdout ++ "\n******** ADJACENCY LIST REPRESENTATION ********:\n\n",
            w.stderr, w.heap⟩ (slots_present g slots hv hlen)
        rcases htot with ⟨w1, h1⟩ | ⟨w1, h1⟩
        · exact absurd (ha.mp ⟨w1, by
            simp only [al_graph_print, bind_apply, Prog.bind, printf]
            exact h1⟩) hcond
        · exact ⟨w1, by
            simp only [al_graph_print, bind_apply, Prog.bind, printf]
            exact h1⟩
      · have htot := graph_print_loop_total g g.n_vertices 0
          ⟨w.stdout ++ "\n******** GRAPH VERTICES & EDGES REPRESENTATION ********:\n\n",
            w.stderr, w.heap⟩ (slots_present g slots hv hlen)
        rcases htot with ⟨w1, h1⟩ | ⟨w1, h1⟩
        · exact absurd (he.mp ⟨w1, by
            simp only [graph_print, bind_apply, Prog.bind, printf]
            exact h1⟩) hcond
        · exact ⟨w1, by
            simp only [graph_print, bind_apply, Prog.bind, printf]
            exact h1⟩
    · intro h8
      exact ⟨fun h => by have := (ha.mp h).1; omega, fun h => by have := (he.mp h).1; omega⟩
  · intro n edges w hn hw he
    have h2 : ∀ b ∈ w.heap.take 2, b = true := fun b hb => hw b (List.mem_of_mem_take hb)
    have hw2 : allocs_ok { w with heap := w.heap.drop 2 } :=
      fun b hb => hw b (List.mem_of_mem_drop hb)
    have hnew : WF ⟨n, some (List.replicate n [])⟩ := by
      simp only [WF]
      refine ⟨by simp, ?_⟩
      intro c hc x hx
      rw [(List.mem_replicate.mp hc).2] at hx
      simp at hx
    obtain ⟨g1, w1, hrun, hwf1, hn1⟩ :=
      WF_add_edges edges ⟨n, some (List.replicate n [])⟩ _ hnew he hw2
    cases hv : g1.v_array with
    | none => simp [WF, hv] at hwf1
    | some slots =>
      simp only [WF, hv] at hwf1
      have hn7 : g1.n_vertices ≤ 7 := by simpa [hn1] using hn
      have hcond : g1.n_vertices ≤ 7 ∧ ∀ c ∈ slots, ∀ d ∈ c, d ≤ 6 :=
        ⟨hn7, fun c hc d hd => by have := hwf1.2 c hc d hd; omega⟩
      obtain ⟨wa, hwa⟩ := (al_graph_print_ret_iff g1 slots w1 hv hwf1.1).mpr hcond
      obtain ⟨we, hwe⟩ := (graph_print_ret_iff g1 slots w1 hv hwf1.1).mpr hcond
      refine ⟨g1, w1, wa, we, ?_, hwa, hwe⟩
      simp only [bind_apply, Prog.bind,
        graph_new_ok n w (by simp only [UINT_MAX]; omega) h2]
      exact hrun

/-- C15 on the run of `main`: the store built by the seven inserts on `graph_new(7)` is
displayed by both views. -/
theorem views_complete_iff_witness :
    ∃ g w1 wa we,
      (graph_new 7 >>= fun g0 =>
        add_edges g0 [(0, 1), (0, 2), (2, 3), (3, 4), (3, 6), (4, 5), (6, 5)]) World.init
        = Outcome.ret g w1 ∧
      al_graph_print g w1 = Outcome.ret () wa ∧ graph_print g w1 = Outcome.ret () we :=
  views_complete_iff.2 7 [(0, 1), (0, 2), (2, 3), (3, 4), (3, 6), (4, 5), (6, 5)] World.init
    (by decide) (by decide) (by decide)

/-! ## Claims about repeated and reordered insertions -/

theorem node_count_set (slots : List adjlist) (s d : Nat) (hs : s < slots.length) :
    ((slots.set s (d :: slots.getD s [])).map List.length).sum
      = (slots.map List.length).sum + 1 := by
  induction slots generalizing s with
  | nil => simp at hs
  | cons c rest ih =>
    cases s with
    | zero => simp; omega
    | succ s =>
      have hs1 : s < rest.length := by simpa using hs
      have := ih s hs1
      simp only [List.set_cons_succ, List.map_cons, List.sum_cons, List.getD_cons_succ]
      omega

theorem node_count_add_edges (edges : List (Nat × Nat)) :
    ∀ (g : graph) (slots : List adjlist) (w : World), g.v_array = some slots →
      (∀ e ∈ edges, e.1 < slots.length) → allocs_ok w →
      ∃ slots1 w1, add_edges g edges w = Outcome.ret ⟨g.n_vertices, some slots1⟩ w1 ∧
        (slots1.map List.length).sum = (slots.map List.length).sum + edges.length := by
  induction edges with
  | nil =>
    intro g slots w hv _ _
    refine ⟨slots, w, ?_, rfl⟩
    cases g; simp_all [add_edges, pure_apply]
  | cons e rest ih =>
    intro g slots w hv he hw
    obtain ⟨s, d⟩ := e
    have hs : s < slots.length := he (s, d) (by simp)
    obtain ⟨slots1, w1, hrun, hsum⟩ :=
      ih ⟨g.n_vertices, some (slots.set s (d :: slots.getD s []))⟩ _
        { w with heap := w.heap.tail } rfl
        (fun e hmem => by simpa using he e (by simp [hmem])) (allocs_ok_tail w hw)
    refine ⟨slots1, w1, ?_, ?_⟩
    · simp only [add_edges, bind_apply, Prog.bind,
        add_edge_ok g slots s d w hv hs (allocs_ok_head w hw)]
      exact hrun
    · rw [hsum, node_count_set slots s d hs, List.length_cons]
      omega

theorem add_edge_twice_ok (g : graph) (slots : List adjlist) (s1 d1 s2 d2 : Nat) (w : World)
    (hv : g.v_array = some slots) (h1 : s1 < slots.length) (h2 : s2 < slots.length)
    (hw : allocs_ok w) :
    (add_edge g s1 d1 >>= fun g1 => add_edge g1 s2 d2) w =
      Outcome.ret
        ⟨g.n_vertices, some ((slots.set s1 (d1 :: slots.getD s1 [])).set s2
          (d2 :: (slots.set s1 (d1 :: slots.getD s1 [])).getD s2 []))⟩
        { w with heap := w.heap.tail.tail } := by
  simp only [bind_apply, Prog.bind, add_edge_ok g slots s1 d1 w hv h1 (allocs_ok_head w hw)]
  exact add_edge_ok ⟨g.n_vertices, some (slots.set s1 (d1 :: slots.getD s1 []))⟩
    _ s2 d2 _ rfl (by simpa using h2) (allocs_ok_head _ (allocs_ok_tail w hw))

/-- C16: `add_edge` neither rejects nor deduplicates. On a store with `n_vertices`
slots and `source < n_vertices` it makes the chain of slot `source` longer by exactly
one, whatever `dest` is; adding the same edge twice puts two copies of `dest` at the
head; and after any `k` calls with sources below `n` on `graph_new(n)` the chains hold
exactly `k` nodes in all (allocations succeeding). -/
theorem add_edge_never_deduplicates :
    (∀ (g : graph) (slots : List adjlist) (source dest : Nat) (w : World),
      g.v_array = some slots → slots.length = g.n_vertices → source < g.n_vertices →
      w.heap.head? ≠ some false →
      ∃ slots1 w1 old, add_edge g source dest w = Outcome.ret ⟨g.n_vertices, some slots1⟩ w1 ∧
        slots[source]? = some old ∧ slots1[source]? = some (dest :: old) ∧
        (dest :: old).length = old.length + 1) ∧
    (∀ (g : graph) (slots : List adjlist) (source dest : Nat) (w : World),
      g.v_array = some slots → slots.length = g.n_vertices → source < g.n_vertices →
      allocs_ok w →
      ∃ slots2 w2 old,
        (add_edge g source dest >>= fun g1 => add_edge g1 source dest) w
          = Outcome.ret ⟨g.n_vertices, some slots2⟩ w2 ∧
        slots[source]? = some old ∧ slots2[source]? = some (dest :: dest :: old)) ∧
    (∀ (n : Nat) (edges : List (Nat × Nat)) (w : World), n ≤ UINT_MAX → allocs_ok w →
      (∀ e ∈ edges, e.1 < n) →
      ∃ slots w1, (graph_new n >>= fun g => add_edges g edges) w
          = Outcome.ret ⟨n, some slots⟩ w1 ∧
        (slots.map List.length).sum = edges.length) := by
  refine ⟨?_, ?_, ?_⟩
  · intro g slots source dest w hv hlen hs hm
    have hs1 : source < slots.length := by omega
    refine ⟨_, _, slots[source], add_edge_ok g slots source dest w hv hs1 hm,
      List.getElem?_eq_getElem hs1, ?_, rfl⟩
    simp [List.getElem?_set_self hs1, List.getD_eq_getElem?_getD,
      List.getElem?_eq_getElem hs1]
  · intro g slots source dest w hv hlen hs hw
    have hs1 : source < slots.length := by omega
    refine ⟨_, _, slots[source],
      add_edge_twice_ok g slots source dest source dest w hv hs1 hs1 hw,
      List.getElem?_eq_getElem hs1, ?_⟩
    simp [List.getElem?_set_self hs1, List.getD_eq_getElem?_getD,
      List.getElem?_eq_getElem hs1]
  · intro n edges w hn hw he
    have h2 : ∀ b ∈ w.heap.take 2, b = true := fun b hb => hw b (List.mem_of_mem_take hb)
    have hw2 : allocs_ok { w with heap := w.heap.drop 2 } :=
      fun b hb => hw b (List.mem_of_mem_drop hb)
    obtain ⟨slots1, w1, hrun, hsum⟩ :=
      node_count_add_edges edges ⟨n, some (List.replicate n [])⟩ (List.replicate n [])
        { w with heap := w.heap.drop 2 } rfl (by simpa using he) hw2
    refine ⟨slots1, w1, ?_, ?_⟩
    · simp only [bind_apply, Prog.bind, graph_new_ok n w hn h2]
      exact hrun
    · rw [hsum]
      simp

/-- C16 on `graph_new(2)` with the edge `(0, 0)` added twice and `(1, 0)` once: three
calls, three nodes. -/
theorem add_edge_never_deduplicates_witness :
    ∃ slots w1, (graph_new 2 >>= fun g => add_edges g [(0, 0), (0, 0), (1, 0)]) World.init
        = Outcome.ret ⟨2, some slots⟩ w1 ∧
      (slots.map List.length).sum = 3 :=
  add_edge_never_deduplicates.2.2 2 [(0, 0), (0, 0), (1, 0)] World.init
    (by decide) (by decide) (by decide)

/-- C17: on a store with `n_vertices` slots, two insertions at different sources
`s1 ≠ s2` below `n_vertices` give the same store in either order, and two insertions
at one source with different destinations give different stores in the two orders
(allocations succeeding). -/
theorem add_edge_commutes_across_sources :
    (∀ (g : graph) (slots : List adjlist) (s1 s2 d1 d2 : Nat) (w : World),
      g.v_array = some slots → slots.length = g.n_vertices →
      s1 < g.n_vertices → s2 < g.n_vertices → s1 ≠ s2 → allocs_ok w →
      ∃ g2 w2,
        (add_edge g s1 d1 >>= fun g1 => add_edge g1 s2 d2) w = Outcome.ret g2 w2 ∧
        (add_edge g s2 d2 >>= fun g1 => add_edge g1 s1 d1) w = Outcome.ret g2 w2) ∧
    (∀ (g : graph) (slots : List adjlist) (s d1 d2 : Nat) (w : World),
      g.v_array = some slots → slots.length = g.n_vertices →
      s < g.n_vertices → d1 ≠ d2 → allocs_ok w →
      ∃ ga gb wa wb,
        (add_edge g s d1 >>= fun g1 => add_edge g1 s d2) w = Outcome.ret ga wa ∧
        (add_edge g s d2 >>= fun g1 => add_edge g1 s d1) w = Outcome.ret gb wb ∧
        ga ≠ gb) := by
  constructor
  · intro g slots s1 s2 d1 d2 w hv hlen h1 h2 hne hw
    have hs1 : s1 < slots.length := by omega
    have hs2 : s2 < slots.length := by omega
    refine ⟨_, _, add_edge_twice_ok g slots s1 d1 s2 d2 w hv hs1 hs2 hw, ?_⟩
    rw [add_edge_twice_ok g slots s2 d2 s1 d1 w hv hs2 hs1 hw]
    simp only [List.getD_eq_getElem?_getD, List.getElem?_set_ne hne,
      List.getElem?_set_ne (Ne.symm hne)]
    rw [List.set_comm _ _ _ (Ne.symm hne)]
  · intro g slots s d1 d2 w hv hlen hs hne hw
    have hs1 : s < slots.length := by omega
    refine ⟨_, _, _, _, add_edge_twice_ok g slots s d1 s d2 w hv hs1 hs1 hw,
      add_edge_twice_ok g slots s d2 s d1 w hv hs1 hs1 hw, ?_⟩
    intro heq
    have h3 := congrArg (fun x : graph => (x.v_array.getD [])[s]?) heq
    simp [List.getElem?_set_self hs1, List.getD_eq_getElem?_getD] at h3
    exact hne h3.1.symm

/-- C17 on the store `{[], []}`: the edges `(0, 1)` and `(1, 0)` in either order give
the store `{[1], [0]}`. -/
theorem add_edge_commutes_across_sources_witness :
    ∃ g2 w2,
      (add_edge ⟨2, some [[], []]⟩ 0 1 >>= fun g1 => add_edge g1 1 0) World.init
        = Outcome.ret g2 w2 ∧
      (add_edge ⟨2, some [[], []]⟩ 1 0 >>= fun g1 => add_edge g1 0 1) World.init
        = Outcome.ret g2 w2 :=
  add_edge_commutes_across_sources.1 ⟨2, some [[], []]⟩ [[], []] 0 1 1 0 World.init rfl rfl
    (by decide) (by decide) (by decide) (by decide)

/-! ## Claims about allocation failure and `al_print` -/

theorem al_cons_fails (x : Nat) (xs : adjlist) (w : World) (h : w.heap.head? = some false) :
    al_cons x xs w = Outcome.exited 1
      { stdout := w.stdout,
        stderr := w.stderr ++ "error (al_cons): malloc failed-not enough memory\n",
        heap := w.heap.tail } := by
  cases hh : w.heap with
  | nil => simp [hh] at h
  | cons b rest =>
    have hb : b = false := by simpa [hh] using h
    subst hb
    simp [al_cons, bind_apply, Prog.bind, malloc, hh, fprintf_stderr, exit]

theorem al_new_fails (x : Nat) (w : World) (h : w.heap.head? = some false) :
    al_new x w = Outcome.exited 1
      { stdout := w.stdout, stderr := w.stderr ++ "error (al_new): malloc failed\n",
        heap := w.heap.tail } := by
  cases hh : w.heap with
  | nil => simp [hh] at h
  | cons b rest =>
    have hb : b = false := by simpa [hh] using h
    subst hb
    simp [al_new, bind_apply, Prog.bind, malloc, hh, fprintf_stderr, exit]

theorem bind_never_exits {α β : Type} (m : Prog α) (f : α → Prog β)
    (hm : ∀ (w w1 : World) (c : Nat), m w ≠ Outcome.exited c w1)
    (hf : ∀ (a : α) (w w1 : World) (c : Nat), f a w ≠ Outcome.exited c w1) :
    ∀ (w w1 : World) (c : Nat), (m >>= f) w ≠ Outcome.exited c w1 := by
  intro w w1 c h
  simp only [bind_apply, Prog.bind] at h
  cases hmw : m w with
  | ret a w2 => rw [hmw] at h; exact hf a w2 w1 c h
  | exited c2 w2 => exact hm w w2 c2 hmw
  | undef => rw [hmw] at h; cases h

theorem graph_new_loop_never_exits (p : Option Nat) :
    ∀ (r i : Nat) (cells : List adjlist) (w w1 : World) (c : Nat),
      graph_new_loop p r i cells w ≠ Outcome.exited c w1 := by
  intro r
  induction r with
  | zero => intro i cells w w1 c h; simp [graph_new_loop, pure_apply] at h
  | succ r ih =>
    intro i cells w w1 c h
    cases p with
    | none => simp [graph_new_loop, undef] at h
    | some bytes =>
      simp only [graph_new_loop] at h
      split at h
      · exact ih _ _ _ _ _ h
      · simp [undef] at h

theorem graph_new_never_exits (v : Nat) :
    ∀ (w w1 : World) (c : Nat), graph_new v w ≠ Outcome.exited c w1 := by
  have hmalloc : ∀ (size : Nat) (w w1 : World) (c : Nat),
      malloc size w ≠ Outcome.exited c w1 := by
    intro size w w1 c h
    unfold malloc at h
    split at h <;> cases h
  have hprint : ∀ (s : String) (w w1 : World) (c : Nat),
      fprintf_stderr s w ≠ Outcome.exited c w1 := by
    intro s w w1 c h; cases h
  have hpure : ∀ {α : Type} (a : α) (w w1 : World) (c : Nat),
      (pure a : Prog α) w ≠ Outcome.exited c w1 := by
    intro α a w w1 c h; cases h
  unfold graph_new
  refine bind_never_exits _ _ (hmalloc _) (fun new_graph => ?_)
  split
  all_goals
    refine bind_never_exits _ _ (by first | exact hprint _ | exact hpure _) (fun _ => ?_)
    refine bind_never_exits _ _ (hmalloc _) (fun new_alist => ?_)
    dsimp only
    split
    all_goals
      refine bind_never_exits _ _ (by first | exact hprint _ | exact hpure _) (fun _ => ?_)
      refine bind_never_exits _ _ (graph_new_loop_never_exits _ _ _ _) (fun cells => ?_)
      intro w w1 c h
      cases new_graph <;> cases h

/-- C12, the code at failing allocations: `graph_new(1)` with the header allocation
failing, or with the slot allocation failing, goes on to store through `NULL`;
`graph_new(0)` with the slot allocation failing returns a store with a `NULL` slot
sequence; `al_cons` and `al_new` end the process with status 1. -/
theorem graph_new_goes_on_after_failed_malloc :
    graph_new 1 ⟨"", "", [false]⟩ = Outcome.undef ∧
    graph_new 1 ⟨"", "", [true, false]⟩ = Outcome.undef ∧
    graph_new 0 ⟨"", "", [true, false]⟩ = Outcome.ret ⟨0, none⟩
      ⟨"", "error (graph_new): malloc failed on new_alist\n", []⟩ ∧
    al_cons 1 [] ⟨"", "", [false]⟩ = Outcome.exited 1
      ⟨"", "error (al_cons): malloc failed-not enough memory\n", []⟩ ∧
    al_new 1 ⟨"", "", [false]⟩ = Outcome.exited 1
      ⟨"", "error (al_new): malloc failed\n", []⟩ := by
  decide!

theorem fmt_d_small (x : Nat) (h : x ≤ INT_MAX) : fmt_d (int_of_unsigned x) = Nat.repr x := by
  have hx : x % (UINT_MAX + 1) = x := by
    apply Nat.mod_eq_of_lt
    simp only [UINT_MAX, INT_MAX] at *
    omega
  simp only [int_of_unsigned, hx, h, if_true]
  rfl

theorem al_print_small (xs : adjlist) :
    ∀ w : World, (∀ x ∈ xs, x ≤ INT_MAX) →
      al_print xs w = Outcome.ret ()
        { w with stdout := (w.stdout ++ cat (xs.map fun x => Nat.repr x ++ ", ")) } := by
  induction xs with
  | nil => intro w _; simp [al_print, pure_apply, cat_nil]
  | cons x xs ih =>
    intro w h
    simp only [al_print, bind_apply, Prog.bind, printf, fmt_d_small x (h x (by simp))]
    rw [ih _ (fun y hy => h y (by simp [hy]))]
    simp [cat_cons, String.append_assoc]

/-- C14, the code on a chain holding a value above `INT_MAX`: for the chain
`[3, 4294967295]` `al_print` writes `3, -1, `, and for `[2147483648]` it writes
`-2147483648, `. -/
theorem al_print_large_value_negative :
    al_print [3, 4294967295] World.init = Outcome.ret () ⟨"3, -1, ", "", []⟩ ∧
    al_print [2147483648] World.init = Outcome.ret () ⟨"-2147483648, ", "", []⟩ ∧
    al_print [] World.init = Outcome.ret () World.init := by
  decide!

/-! ## The views determine the store -/

theorem label_data (d : Nat) (h : d ≤ 6) : (label d).data = [Char.ofNat (65 + d)] := by
  interval_cases d <;> rfl

theorem label_char_inj (d e : Nat) (hd : d ≤ 6) (he : e ≤ 6)
    (h : Char.ofNat (65 + d) = Char.ofNat (65 + e)) : d = e := by
  interval_cases d <;> interval_cases e <;> first | rfl | exact absurd h (by decide)

theorem label_char_ne_brace (d : Nat) (hd : d ≤ 6) : Char.ofNat (65 + d) ≠ '\x7d' := by
  interval_cases d <;> decide

theorem cat_data_cons (s : String) (l : List String) :
    (cat (s :: l)).data = s.data ++ (cat l).data := rfl

theorem adj_chain_chars_inj :
    ∀ (c1 c2 : adjlist) (t1 t2 : List Char), (∀ d ∈ c1, d ≤ 6) → (∀ d ∈ c2, d ≤ 6) →
      (cat (c1.map fun d => " " ++ label d ++ "->")).data ++ (' ' :: '\x7d' :: '\n' :: t1)
        = (cat (c2.map fun d => " " ++ label d ++ "->")).data
            ++ (' ' :: '\x7d' :: '\n' :: t2) →
      c1 = c2 ∧ t1 = t2 := by
  have hsp : (" " : String).data = [' '] := rfl
  have harr : ("->" : String).data = ['-', '>'] := rfl
  intro c1
  induction c1 with
  | nil =>
    intro c2 t1 t2 _ h2 h
    cases c2 with
    | nil => simpa [cat_nil] using h
    | cons e c2 =>
      exfalso
      have he : e ≤ 6 := h2 e (by simp)
      simp only [List.map_nil, cat_nil, List.map_cons, cat_data_cons, String.data_append,
        label_data e he, hsp, harr, List.append_assoc, List.cons_append, List.nil_append,
        List.cons.injEq, true_and] at h
      exact label_char_ne_brace e he h.1.symm
  | cons d c1 ih =>
    intro c2 t1 t2 h1 h2 h
    have hd : d ≤ 6 := h1 d (by simp)
    cases c2 with
    | nil =>
      exfalso
      simp only [List.map_nil, cat_nil, List.map_cons, cat_data_cons, String.data_append,
        label_data d hd, hsp, harr, List.append_assoc, List.cons_append, List.nil_append,
        List.cons.injEq, true_and] at h
      exact label_char_ne_brace d hd h.1
    | cons e c2 =>
      have he : e ≤ 6 := h2 e (by simp)
      simp only [List.map_cons, cat_data_cons, String.data_append,
        label_data d hd, label_data e he, hsp, harr, List.append_assoc, List.cons_append,
        List.nil_append, List.cons.injEq, true_and] at h
      obtain ⟨hde, hrest⟩ := h
      have := label_char_inj d e hd he hde
      subst this
      obtain ⟨hc, ht⟩ := ih c2 t1 t2 (fun x hx => h1 x (by simp [hx]))
        (fun x hx => h2 x (by simp [hx])) hrest
      exact ⟨by rw [hc], ht⟩

theorem adj_entries_inj :
    ∀ (r1 r2 v : Nat) (f1 f2 : Nat → adjlist),
      (∀ i, v ≤ i → i < v + r1 → ∀ d ∈ f1 i, d ≤ 6) →
      (∀ i, v ≤ i → i < v + r2 → ∀ d ∈ f2 i, d ≤ 6) →
      (cat ((List.range' v r1).map fun i => adj_entry (label i) ((f1 i).map label))).data
        = (cat ((List.range' v r2).map fun i => adj_entry (label i) ((f2 i).map label))).data →
      r1 = r2 ∧ ∀ i, v ≤ i → i < v + r1 → f1 i = f2 i := by
  have hhead : ("Adjacency list for vertex " : String).data
      = 'A' :: ("djacency list for vertex " : String).data := rfl
  have hclose : (" \x7d\n" : String).data = [' ', '\x7d', '\n'] := rfl
  intro r1
  induction r1 with
  | zero =>
    intro r2 v f1 f2 _ _ h
    cases r2 with
    | zero => exact ⟨rfl, fun i h1 h2 => by omega⟩
    | succ r2 =>
      exfalso
      simp [List.range'_succ, cat_nil, cat_data_cons, adj_entry, hhead] at h
  | succ r1 ih =>
    intro r2 v f1 f2 h1 h2 h
    cases r2 with
    | zero =>
      exfalso
      simp [List.range'_succ, cat_nil, cat_data_cons, adj_entry, hhead] at h
    | succ r2 =>
      simp only [List.range'_succ, List.map_cons, cat_data_cons, adj_entry,
        String.data_append, List.append_assoc, List.append_cancel_left_eq, List.map_map,
        Function.comp_def, hclose, List.cons_append, List.nil_append, List.cons.injEq,
        true_and] at h
      obtain ⟨hc, ht⟩ := adj_chain_chars_inj (f1 v) (f2 v) _ _
        (h1 v (Nat.le_refl v) (by omega)) (h2 v (Nat.le_refl v) (by omega)) h
      have hrest := ih r2 (v + 1) f1 f2 (fun i ha hb => h1 i (by omega) (by omega))
        (fun i ha hb => h2 i (by omega) (by omega)) (by
          simpa only [adj_entry, String.data_append, List.append_assoc, List.map_map,
            Function.comp_def] using ht)
      refine ⟨by omega, ?_⟩
      intro i ha hb
      by_cases hi : i = v
      · subst hi; exact hc
      · exact hrest.2 i (by omega) (by omega)

theorem edge_chain_chars_inj (l : String) :
    ∀ (c1 c2 : adjlist) (t1 t2 : List Char), (∀ d ∈ c1, d ≤ 6) → (∀ d ∈ c2, d ≤ 6) →
      (cat (c1.map fun d => " (" ++ l ++ ", " ++ label d ++ ") ;")).data ++ ('\n' :: t1)
        = (cat (c2.map fun d => " (" ++ l ++ ", " ++ label d ++ ") ;")).data ++ ('\n' :: t2) →
      c1 = c2 ∧ t1 = t2 := by
  have hopen : (" (" : String).data = [' ', '('] := rfl
  have hend : (") ;" : String).data = [')', ' ', ';'] := rfl
  intro c1
  induction c1 with
  | nil =>
    intro c2 t1 t2 _ h2 h
    cases c2 with
    | nil => simpa [cat_nil] using h
    | cons e c2 =>
      exfalso
      simp [cat_nil, cat_data_cons, hopen] at h
  | cons d c1 ih =>
    intro c2 t1 t2 h1 h2 h
    have hd : d ≤ 6 := h1 d (by simp)
    cases c2 with
    | nil =>
      exfalso
      simp [cat_nil, cat_data_cons, hopen] at h
    | cons e c2 =>
      have he : e ≤ 6 := h2 e (by simp)
      simp only [List.map_cons, cat_data_cons, String.data_append,
        label_data d hd, label_data e he, hend, List.append_assoc, List.cons_append,
        List.nil_append, List.append_cancel_left_eq, List.cons.injEq, true_and] at h
      obtain ⟨hde, hrest⟩ := h
      have := label_char_inj d e hd he hde
      subst this
      obtain ⟨hc, ht⟩ := ih c2 t1 t2 (fun x hx => h1 x (by simp [hx]))
        (fun x hx => h2 x (by simp [hx])) hrest
      exact ⟨by rw [hc], ht⟩

theorem edge_entries_inj :
    ∀ (r1 r2 v : Nat) (f1 f2 : Nat → adjlist),
      (∀ i, v ≤ i → i < v + r1 → ∀ d ∈ f1 i, d ≤ 6) →
      (∀ i, v ≤ i → i < v + r2 → ∀ d ∈ f2 i, d ≤ 6) →
      (cat ((List.range' v r1).map fun i => edge_entry (label i) ((f1 i).map label))).data
        = (cat ((List.range' v r2).map fun i =>
            edge_entry (label i) ((f2 i).map label))).data →
      r1 = r2 ∧ ∀ i, v ≤ i → i < v + r1 → f1 i = f2 i := by
  have hhead : ("Vertex " : String).data = 'V' :: ("ertex " : String).data := rfl
  have hclose : ("\n" : String).data = ['\n'] := rfl
  intro r1
  induction r1 with
  | zero =>
    intro r2 v f1 f2 _ _ h
    cases r2 with
    | zero => exact ⟨rfl, fun i h1 h2 => by omega⟩
    | succ r2 =>
      exfalso
      simp [List.range'_succ, cat_nil, cat_data_cons, edge_entry, hhead] at h
  | succ r1 ih =>
    intro r2 v f1 f2 h1 h2 h
    cases r2 with
    | zero =>
      exfalso
      simp [List.range'_succ, cat_nil, cat_data_cons, edge_entry, hhead] at h
    | succ r2 =>
      simp only [List.range'_succ, List.map_cons, cat_data_cons, edge_entry,
        String.data_append, List.append_assoc, List.append_cancel_left_eq, List.map_map,
        Function.comp_def, hclose, List.cons_append, List.nil_append, List.cons.injEq,
        true_and] at h
      obtain ⟨hc, ht⟩ := edge_chain_chars_inj (label v) (f1 v) (f2 v) _ _
        (h1 v (Nat.le_refl v) (by omega)) (h2 v (Nat.le_refl v) (by omega)) (by
          simpa only [String.data_append, List.append_assoc] using h)
      have hrest := ih r2 (v + 1) f1 f2 (fun i ha hb => h1 i (by omega) (by omega))
        (fun i ha hb => h2 i (by omega) (by omega)) (by
          simpa only [edge_entry, String.data_append, List.append_assoc, List.map_map,
            Function.comp_def] using ht)
      refine ⟨by omega, ?_⟩
      intro i ha hb
      by_cases hi : i = v
      · subst hi; exact hc
      · exact hrest.2 i (by omega) (by omega)

theorem slots_eq_of_chain_at (g1 g2 : graph) (slots1 slots2 : List adjlist)
    (hv1 : g1.v_array = some slots1) (hl1 : slots1.length = g1.n_vertices)
    (hv2 : g2.v_array = some slots2) (hl2 : slots2.length = g2.n_vertices)
    (h : g1.n_vertices = g2.n_vertices ∧
      ∀ i, 0 ≤ i → i < 0 + g1.n_vertices → chain_at g1 i = chain_at g2 i) :
    g1.n_vertices = g2.n_vertices ∧ slots1 = slots2 := by
  refine ⟨h.1, List.ext_getElem (by omega) ?_⟩
  intro i hi1 hi2
  have := h.2 i (Nat.zero_le i) (by omega)
  rw [chain_at_eq g1 slots1 hv1, chain_at_eq g2 slots2 hv2] at this
  simpa [List.getD_eq_getElem?_getD, List.getElem?_eq_getElem hi1,
    List.getElem?_eq_getElem hi2] using this

/-- C18: the views determine the store. If `al_graph_print` completes on two stores
(each with `n_vertices` slots), started with the same output so far, and leaves the
same text, then the stores have the same `n_vertices` and the same chains in all
slots; the same holds for `graph_print`. The labels of `vertex_tos` for two different
indices differ. -/
theorem views_injective (g1 g2 : graph) (slots1 slots2 : List adjlist) (w wa wb : World)
    (hv1 : g1.v_array = some slots1) (hl1 : slots1.length = g1.n_vertices)
    (hv2 : g2.v_array = some slots2) (hl2 : slots2.length = g2.n_vertices) :
    (al_graph_print g1 w = Outcome.ret () wa → al_graph_print g2 w = Outcome.ret () wb →
      wa.stdout = wb.stdout → g1.n_vertices = g2.n_vertices ∧ slots1 = slots2) ∧
    (graph_print g1 w = Outcome.ret () wa → graph_print g2 w = Outcome.ret () wb →
      wa.stdout = wb.stdout → g1.n_vertices = g2.n_vertices ∧ slots1 = slots2) ∧
    (∀ (d e : Nat) (s : String) (w0 : World), vertex_tos d w0 = Outcome.ret s w0 →
      vertex_tos e w0 = Outcome.ret s w0 → d = e) := by
  refine ⟨?_, ?_, ?_⟩
  · intro ha hb heq
    simp only [al_graph_print, bind_apply, Prog.bind, printf] at ha hb
    have hs1 := al_graph_print_loop_ret g1 _ _ _ _ _ ha
    have hs2 := al_graph_print_loop_ret g2 _ _ _ _ _ hb
    rw [al_graph_print_loop_ok g1 _ _ _ hs1] at ha
    rw [al_graph_print_loop_ok g2 _ _ _ hs2] at hb
    injection ha with _ ha
    injection hb with _ hb
    subst ha hb
    have hdata := congrArg String.data heq
    simp only [String.data_append, List.append_assoc, List.append_cancel_left_eq] at hdata
    exact slots_eq_of_chain_at g1 g2 slots1 slots2 hv1 hl1 hv2 hl2
      (adj_entries_inj _ _ 0 (chain_at g1) (chain_at g2)
        (fun i h1 h2 d hd => by
          obtain ⟨_, c, hc, hvals⟩ := hs1 i h1 h2
          simp only [chain_at, hc, Option.getD_some] at hd
          exact hvals d hd)
        (fun i h1 h2 d hd => by
          obtain ⟨_, c, hc, hvals⟩ := hs2 i h1 h2
          simp only [chain_at, hc, Option.getD_some] at hd
          exact hvals d hd) hdata)
  · intro ha hb heq
    simp only [graph_print, bind_apply, Prog.bind, printf] at ha hb
    have hs1 := graph_print_loop_ret g1 _ _ _ _ _ ha
    have hs2 := graph_print_loop_ret g2 _ _ _ _ _ hb
    rw [graph_print_loop_ok g1 _ _ _ hs1] at ha
    rw [graph_print_loop_ok g2 _ _ _ hs2] at hb
    injection ha with _ ha
    injection hb with _ hb
    subst ha hb
    have hdata := congrArg String.data heq
    simp only [String.data_append, List.append_assoc, List.append_cancel_left_eq] at hdata
    exact slots_eq_of_chain_at g1 g2 slots1 slots2 hv1 hl1 hv2 hl2
      (edge_entries_inj _ _ 0 (chain_at g1) (chain_at g2)
        (fun i h1 h2 d hd => by
          obtain ⟨_, c, hc, hvals⟩ := hs1 i h1 h2
          simp only [chain_at, hc, Option.getD_some] at hd
          exact hvals d hd)
        (fun i h1 h2 d hd => by
          obtain ⟨_, c, hc, hvals⟩ := hs2 i h1 h2
          simp only [chain_at, hc, Option.getD_some] at hd
          exact hvals d hd) hdata)
  · intro d e s w0 hd he
    have hd6 : d ≤ 6 := by
      by_contra hn
      rw [vertex_tos_fail d w0 (by omega)] at hd
      cases hd
    have he6 : e ≤ 6 := by
      by_contra hn
      rw [vertex_tos_fail e w0 (by omega)] at he
      cases he
    rw [vertex_tos_ok d w0 hd6] at hd
    rw [vertex_tos_ok e w0 he6] at he
    injection hd with hd
    injection he with he
    have hdata := congrArg String.data (hd.trans he.symm)
    rw [label_data d hd6, label_data e he6] at hdata
    exact label_char_inj d e hd6 he6 (by simpa using hdata)

/-- C18 on the stores `{[1], []}` and `{[1], []}` compared through the adjacency view. -/
theorem views_injective_witness :
    (al_graph_print ⟨2, some [[1], []]⟩ World.init = Outcome.ret ()
      ⟨"\n******** ADJACENCY LIST REPRESENTATION ********:\n\nAdjacency list for vertex A: \n \x7b  B-> \x7d\nAdjacency list for vertex B: \n \x7b  \x7d\n", "", []⟩) ∧
    (⟨2, some [[1], []]⟩ : graph).n_vertices = (⟨2, some [[1], []]⟩ : graph).n_vertices ∧
    [[1], ([] : adjlist)] = [[1], []] :=
  ⟨by decide!,
    (views_injective ⟨2, some [[1], []]⟩ ⟨2, some [[1], []]⟩ [[1], []] [[1], []] World.init
      ⟨"\n******** ADJACENCY LIST REPRESENTATION ********:\n\nAdjacency list for vertex A: \n \x7b  B-> \x7d\nAdjacency list for vertex B: \n \x7b  \x7d\n", "", []⟩
      ⟨"\n******** ADJACENCY LIST REPRESENTATION ********:\n\nAdjacency list for vertex A: \n \x7b  B-> \x7d\nAdjacency list for vertex B: \n \x7b  \x7d\n", "", []⟩
      rfl rfl rfl rfl).1 (by decide!) (by decide!) rfl⟩

/-! ## Facts about the heap -/

theorem hbind_apply {α β : Type} (m : HProg α) (f : α → HProg β) (h : Heap) (w : World) :
    (m >>= f) h w = HProg.bind m f h w := rfl

theorem hpure_apply {α : Type} (a : α) (h : Heap) (w : World) :
    (pure a : HProg α) h w = Outcome.ret (a, h) w := rfl

theorem release_nil (h : Heap) : h.release [] = h := by
  cases h
  simp [Heap.release]

theorem release_release (h : Heap) (l1 l2 : List Nat) :
    (h.release l1).release l2 = h.release (l1 ++ l2) := by
  simp only [Heap.release, List.append_assoc, List.mem_append, Heap.mk.injEq, and_true, true_and]
  funext x
  by_cases h1 : x ∈ l1 <;> by_cases h2 : x ∈ l2 <;> simp [h1, h2]

theorem heap_wf_release (h : Heap) (l : List Nat) (hwf : heap_wf h) : heap_wf (h.release l) := by
  intro a ha
  simp only [Heap.release]
  split
  · rfl
  · exact hwf a ha

theorem mem_load_eq (h : Heap) (w : World) (a : Nat) (b : Block) (hb : h.blocks a = some b) :
    Mem.load (some a) h w = Outcome.ret (b, h) w := by
  simp [Mem.load, hb]

theorem mem_store_eq (h : Heap) (w : World) (a : Nat) (b0 b : Block)
    (hb : h.blocks a = some b0) :
    Mem.store (some a) b h w =
      Outcome.ret ((), { h with blocks := fun x => if x = a then some b else h.blocks x }) w := by
  simp [Mem.store, hb]

theorem mem_free_eq (h : Heap) (w : World) (a : Nat) (b : Block) (hb : h.blocks a = some b) :
    Mem.free (some a) h w = Outcome.ret ((), h.release [a]) w := by
  simp [Mem.free, hb]

theorem mem_malloc_ok (size : Nat) (h : Heap) (w : World) (hm : w.heap.head? ≠ some false) :
    Mem.malloc size h w =
      Outcome.ret
        (some h.brk,
          { blocks := fun x => if x = h.brk then some (Block.raw size) else h.blocks x
            brk := h.brk + 1
            freed := h.freed }) { w with heap := w.heap.tail } := by
  simp [Mem.malloc, malloc_ok size w hm]

theorem is_chain_mem_node (h : Heap) :
    ∀ (l : List Nat) (p : Ptr), is_chain h p l → ∀ a ∈ l,
      ∃ val next, h.blocks a = some (Block.node val next) := by
  intro l
  induction l with
  | nil => intro p _ a ha; simp at ha
  | cons x rest ih =>
    intro p hc a ha
    obtain ⟨_, val, next, hx, hrest⟩ := hc
    rcases List.mem_cons.mp ha with rfl | hmem
    · exact ⟨val, next, hx⟩
    · exact ih next hrest a hmem

theorem is_chain_unique (h : Heap) :
    ∀ (l1 l2 : List Nat) (p : Ptr), is_chain h p l1 → is_chain h p l2 → l1 = l2 := by
  intro l1
  induction l1 with
  | nil =>
    intro l2 p h1 h2
    cases l2 with
    | nil => rfl
    | cons y r2 =>
      simp only [is_chain] at h1
      obtain ⟨hp, _⟩ := h2
      rw [h1] at hp
      cases hp
  | cons x r1 ih =>
    intro l2 p h1 h2
    obtain ⟨hp1, v1, n1, hx1, hr1⟩ := h1
    cases l2 with
    | nil =>
      simp only [is_chain] at h2
      rw [h2] at hp1
      cases hp1
    | cons y r2 =>
      obtain ⟨hp2, v2, n2, hx2, hr2⟩ := h2
      rw [hp1] at hp2
      injection hp2 with hxy
      subst hxy
      rw [hx1] at hx2
      injection hx2 with hb
      injection hb with _ hn
      subst hn
      rw [ih r2 n1 hr1 hr2]

theorem is_chain_sub (h : Heap) :
    ∀ (l : List Nat) (p : Ptr), is_chain h p l → ∀ a ∈ l,
      ∃ l1, is_chain h (some a) l1 ∧ l1.length ≤ l.length := by
  intro l
  induction l with
  | nil => intro p _ a ha; simp at ha
  | cons x rest ih =>
    intro p hc a ha
    rcases List.mem_cons.mp ha with rfl | hmem
    · exact ⟨a :: rest, ⟨rfl, hc.2⟩, Nat.le_refl _⟩
    · obtain ⟨_, val, next, _, hrest⟩ := hc
      obtain ⟨l1, hl1, hlen⟩ := ih next hrest a hmem
      exact ⟨l1, hl1, by simp only [List.length_cons]; omega⟩

theorem is_chain_nodup (h : Heap) :
    ∀ (l : List Nat) (p : Ptr), is_chain h p l → l.Nodup := by
  intro l
  induction l with
  | nil => intro p _; exact List.nodup_nil
  | cons x rest ih =>
    intro p hc
    have hc0 := hc
    obtain ⟨_, val, next, hx, hrest⟩ := hc
    refine List.nodup_cons.mpr ⟨?_, ih next hrest⟩
    intro hmem
    obtain ⟨l1, hl1, hlen⟩ := is_chain_sub h rest next hrest x hmem
    have := is_chain_unique h l1 (x :: rest) (some x) hl1 ⟨rfl, val, next, hx, hrest⟩
    rw [this] at hlen
    simp only [List.length_cons] at hlen
    omega

theorem is_chain_release (h : Heap) (r : List Nat) :
    ∀ (l : List Nat) (p : Ptr), is_chain h p l → (∀ x ∈ l, x ∉ r) →
      is_chain (h.release r) p l := by
  intro l
  induction l with
  | nil => intro p hc _; exact hc
  | cons x rest ih =>
    intro p hc hdis
    obtain ⟨hp, val, next, hx, hrest⟩ := hc
    refine ⟨hp, val, next, ?_, ih next hrest (fun y hy => hdis y (by simp [hy]))⟩
    simp [Heap.release, hdis x (by simp), hx]

theorem is_chain_length_le (h : Heap) (hwf : heap_wf h) (l : List Nat) (p : Ptr)
    (hc : is_chain h p l) : l.length ≤ h.brk := by
  have hnd := is_chain_nodup h l p hc
  have hsub : l ⊆ List.range h.brk := by
    intro a ha
    obtain ⟨val, next, hb⟩ := is_chain_mem_node h l p hc a ha
    rw [List.mem_range]
    by_contra hge
    rw [hwf a (by omega)] at hb
    cases hb
  have := (hnd.subperm hsub).length_le
  simpa using this

theorem al_free_loop_ok :
    ∀ (addrs : List Nat) (fuel : Nat) (p : Ptr) (h : Heap) (w : World),
      is_chain h p addrs → addrs.length ≤ fuel →
      Mem.al_free_loop fuel p h w = Outcome.ret ((), h.release addrs) w := by
  intro addrs
  induction addrs with
  | nil =>
    intro fuel p h w hc _
    simp only [is_chain] at hc
    subst hc
    cases fuel <;> simp [Mem.al_free_loop, hpure_apply, release_nil]
  | cons a rest ih =>
    intro fuel p h w hc hfuel
    have hnd := is_chain_nodup h _ p hc
    obtain ⟨hp, val, next, ha, hrest⟩ := hc
    subst hp
    cases fuel with
    | zero => simp at hfuel
    | succ fuel =>
      have hrest1 : is_chain (h.release [a]) next rest :=
        is_chain_release h [a] rest next hrest (fun x hx => by
          intro hxa
          have : x = a := by simpa using hxa
          subst this
          exact (List.nodup_cons.mp hnd).1 hx)
      simp only [Mem.al_free_loop, Mem.load_node, hbind_apply, HProg.bind,
        mem_load_eq h w a _ ha, hpure_apply, mem_free_eq h w a _ ha]
      rw [ih fuel next (h.release [a]) w hrest1 (by simpa using hfuel), release_release]
      rfl

theorem al_free_ok (h : Heap) (w : World) (p : Ptr) (addrs : List Nat)
    (hc : is_chain h p addrs) (hwf : heap_wf h) :
    Mem.al_free p h w = Outcome.ret ((), h.release addrs) w :=
  al_free_loop_ok addrs h.brk p h w hc (is_chain_length_le h hwf addrs p hc)

theorem graph_free_loop_ok (g va n : Nat) (cells : List Ptr) (chains : Nat → List Nat)
    (w : World) :
    ∀ (r i : Nat) (h : Heap), heap_wf h →
      h.blocks g = some (Block.header n (some va)) →
      h.blocks va = some (Block.slots cells) →
      (∀ j, i ≤ j → j < i + r → ∃ c, cells[j]? = some c ∧ is_chain h c (chains j)) →
      (∀ j1 j2, i ≤ j1 → j1 < j2 → j2 < i + r → ∀ x ∈ chains j2, x ∉ chains j1) →
      Mem.graph_free_loop (some g) r i h w =
        Outcome.ret ((), h.release ((List.range' i r).map chains).flatten) w := by
  intro r
  induction r with
  | zero =>
    intro i h _ _ _ _ _
    simp [Mem.graph_free_loop, hpure_apply, release_nil]
  | succ r ih =>
    intro i h hwf hg hva hch hdis
    obtain ⟨c, hc, hchain⟩ := hch i (Nat.le_refl i) (by omega)
    have hnode := is_chain_mem_node h (chains i) c hchain
    have hg1 : (h.release (chains i)).blocks g = some (Block.header n (some va)) := by
      have : g ∉ chains i := by
        intro hmem
        obtain ⟨val, next, hb⟩ := hnode g hmem
        rw [hg] at hb
        cases hb
      simp [Heap.release, this, hg]
    have hva1 : (h.release (chains i)).blocks va = some (Block.slots cells) := by
      have : va ∉ chains i := by
        intro hmem
        obtain ⟨val, next, hb⟩ := hnode va hmem
        rw [hva] at hb
        cases hb
      simp [Heap.release, this, hva]
    have hch1 : ∀ j, i + 1 ≤ j → j < i + 1 + r →
        ∃ c, cells[j]? = some c ∧ is_chain (h.release (chains i)) c (chains j) := by
      intro j h1 h2
      obtain ⟨cj, hcj, hchj⟩ := hch j (by omega) (by omega)
      exact ⟨cj, hcj, is_chain_release h (chains i) (chains j) cj hchj
        (hdis i j (Nat.le_refl i) (by omega) (by omega))⟩
    simp only [Mem.graph_free_loop, Mem.load_header, Mem.load_cell, hbind_apply, HProg.bind,
      mem_load_eq h w g _ hg, mem_load_eq h w va _ hva, hpure_apply, hc,
      al_free_ok h w c (chains i) hchain hwf]
    rw [ih (i + 1) (h.release (chains i)) (heap_wf_release h _ hwf) hg1 hva1 hch1
      (fun j1 j2 h1 h2 h3 => hdis j1 j2 (by omega) h2 (by omega)), release_release]
    simp [List.range'_succ]

theorem graph_free_ok (g va n : Nat) (cells : List Ptr) (chains : Nat → List Nat)
    (h : Heap) (w : World) (hwf : heap_wf h)
    (hg : h.blocks g = some (Block.header n (some va)))
    (hva : h.blocks va = some (Block.slots cells))
    (hch : ∀ j, 0 ≤ j → j < 0 + n → ∃ c, cells[j]? = some c ∧ is_chain h c (chains j))
    (hdis : ∀ j1 j2, 0 ≤ j1 → j1 < j2 → j2 < 0 + n → ∀ x ∈ chains j2, x ∉ chains j1) :
    Mem.graph_free (some g) h w =
      Outcome.ret ((), h.release (((List.range' 0 n).map chains).flatten ++ [va, g])) w := by
  have hnode : ∀ a ∈ ((List.range' 0 n).map chains).flatten,
      ∃ val next, h.blocks a = some (Block.node val next) := by
    intro a ha
    obtain ⟨l, hl, hal⟩ := List.mem_flatten.mp ha
    obtain ⟨j, hj, rfl⟩ := List.mem_map.mp hl
    have hj2 := (List.mem_range'_1.mp hj)
    obtain ⟨c, _, hchain⟩ := hch j (by omega) (by omega)
    exact is_chain_mem_node h (chains j) c hchain a hal
  have hgn : g ∉ ((List.range' 0 n).map chains).flatten := by
    intro hmem
    obtain ⟨val, next, hb⟩ := hnode g hmem
    rw [hg] at hb
    cases hb
  have hvan : va ∉ ((List.range' 0 n).map chains).flatten := by
    intro hmem
    obtain ⟨val, next, hb⟩ := hnode va hmem
    rw [hva] at hb
    cases hb
  have hne : g ≠ va := by
    intro heq
    rw [heq, hva] at hg
    cases hg
  have hg1 : (h.release ((List.range' 0 n).map chains).flatten).blocks g
      = some (Block.header n (some va)) := by
    simp only [Heap.release, if_neg hgn, hg]
  have hva1 : (h.release ((List.range' 0 n).map chains).flatten).blocks va
      = some (Block.slots cells) := by
    simp only [Heap.release, if_neg hvan, hva]
  have hg2 : ((h.release ((List.range' 0 n).map chains).flatten).release [va]).blocks g
      = some (Block.header n (some va)) := by
    have hgva : g ∉ [va] := by simpa using hne
    simp only [Heap.release, if_neg hgn, if_neg hgva, hg]
  simp only [Mem.graph_free, hbind_apply, HProg.bind, Mem.load_header, ne_eq,
    reduceCtorEq, not_false_eq_true, if_true, mem_load_eq h w g _ hg, hpure_apply,
    graph_free_loop_ok g va n cells chains w n 0 h hwf hg hva hch hdis,
    mem_load_eq _ w g _ hg1, mem_free_eq _ w va _ hva1, mem_free_eq _ w g _ hg2]
  simp [release_release]

theorem mem_graph_new_loop_ok (a bytes : Nat) (h : Heap) (w : World)
    (ha : h.blocks a = some (Block.raw bytes)) :
    ∀ (r i : Nat) (cells : List Ptr), i + r ≤ bytes / sizeof_ptr →
      Mem.graph_new_loop (some a) r i cells h w =
        Outcome.ret (cells ++ List.replicate r none, h) w := by
  intro r
  induction r with
  | zero => intro i cells _; simp [Mem.graph_new_loop, hpure_apply]
  | succ r ih =>
    intro i cells hb
    have hi : i < bytes / sizeof_ptr := by omega
    simp only [Mem.graph_new_loop, hbind_apply, HProg.bind, mem_load_eq h w a _ ha, hi,
      if_true]
    rw [ih (i + 1) (cells ++ [none]) (by omega)]
    simp [List.replicate_succ]

theorem node_addrs_succ (f j : Nat) : node_addrs f (j + 1) = (f + 2 + j) :: node_addrs f j := by
  simp [node_addrs, List.range_succ]

theorem mem_node_addrs (f j a : Nat) : a ∈ node_addrs f j ↔ f + 2 ≤ a ∧ a < f + 2 + j := by
  simp only [node_addrs, List.mem_map, List.mem_reverse, List.mem_range]
  constructor
  · rintro ⟨i, hi, rfl⟩
    omega
  · rintro ⟨h1, h2⟩
    exact ⟨a - (f + 2), by omega, by omega⟩

theorem mem_graph_new_ok (h0 : Heap) (w : World) (n : Nat) (hn : n ≤ UINT_MAX)
    (hm : ∀ b ∈ w.heap.take 2, b = true) :
    Mem.graph_new n h0 w =
      Outcome.ret
        (some h0.brk,
          { blocks := fun x =>
              if x = h0.brk then some (Block.header n (some (h0.brk + 1)))
              else if x = h0.brk + 1 then some (Block.slots (List.replicate n none))
              else h0.blocks x
            brk := h0.brk + 2
            freed := h0.freed }) { w with heap := w.heap.drop 2 } := by
  have h1 : w.heap.head? ≠ some false := by
    cases hh : w.heap with
    | nil => simp
    | cons b rest => have := hm b (by simp [hh]); simp [this]
  have h2 : ({ w with heap := w.heap.tail } : World).heap.head? ≠ some false := by
    cases hh : w.heap with
    | nil => simp
    | cons b rest =>
      cases hr : rest with
      | nil => simp
      | cons c rest2 => have := hm c (by simp [hh, hr]); simp [this]
  have hbytes : sizeof_ptr * n % (SIZE_MAX + 1) = sizeof_ptr * n := by
    apply Nat.mod_eq_of_lt
    simp only [sizeof_ptr, SIZE_MAX, UINT_MAX] at *
    omega
  have hk : 0 + n ≤ sizeof_ptr * n / sizeof_ptr := by
    simp [sizeof_ptr]
  have hdrop : w.heap.tail.tail = w.heap.drop 2 := by
    rcases w.heap with _ | ⟨_, _ | _⟩ <;> simp
  simp only [Mem.graph_new, hbind_apply, HProg.bind, mem_malloc_ok _ h0 w h1, hpure_apply,
    reduceCtorEq, if_false, mem_malloc_ok _ _ _ h2, hbytes, ne_eq, not_false_eq_true,
    if_true]
  rw [mem_graph_new_loop_ok (h0.brk + 1) (sizeof_ptr * n) _ _ (by simp) n 0 [] hk]
  simp only [Mem.store, List.nil_append, ite_true, hdrop]
  have hne : h0.brk ≠ h0.brk + 1 := by omega
  simp only [hne, if_false, if_true, Outcome.ret.injEq, Prod.mk.injEq, Heap.mk.injEq, true_and,
    and_true]
  funext x
  by_cases hx0 : x = h0.brk
  · simp [hx0]
  · by_cases hx1 : x = h0.brk + 1
    · simp [hx1]
    · simp [hx0, hx1]

theorem built_graph_new (h0 : Heap) (n s : Nat) (hs : s < n) :
    built h0 n s 0
      { blocks := fun x =>
          if x = h0.brk then some (Block.header n (some (h0.brk + 1)))
          else if x = h0.brk + 1 then some (Block.slots (List.replicate n none))
          else h0.blocks x
        brk := h0.brk + 2
        freed := h0.freed } := by
  refine ⟨rfl, rfl, by simp, ⟨List.replicate n none, none, by simp, by simp, ?_, ?_, ?_⟩, ?_⟩
  · simp [List.getElem?_replicate, hs]
  · intro i _ hi
    simp [List.getElem?_replicate, hi]
  · simp [node_addrs, is_chain]
  · intro a ha
    have h1 : a ≠ h0.brk := by omega
    have h2 : a ≠ h0.brk + 1 := by omega
    simp [h1, h2]

theorem is_chain_congr (h h1 : Heap) :
    ∀ (l : List Nat) (p : Ptr), is_chain h p l → (∀ x ∈ l, h1.blocks x = h.blocks x) →
      is_chain h1 p l := by
  intro l
  induction l with
  | nil => intro p hc _; exact hc
  | cons x rest ih =>
    intro p hc hsame
    obtain ⟨hp, val, next, hx, hrest⟩ := hc
    exact ⟨hp, val, next, by rw [hsame x (by simp), hx],
      ih next hrest (fun y hy => hsame y (by simp [hy]))⟩

theorem mem_al_cons_ok (x : Nat) (xs : Ptr) (h : Heap) (w : World)
    (hm : w.heap.head? ≠ some false) :
    Mem.al_cons x xs h w =
      Outcome.ret
        (some h.brk,
          { blocks := fun a => if a = h.brk then some (Block.node x xs) else h.blocks a
            brk := h.brk + 1
            freed := h.freed }) { w with heap := w.heap.tail } := by
  simp only [Mem.al_cons, hbind_apply, HProg.bind, mem_malloc_ok _ h w hm, hpure_apply,
    reduceCtorEq, if_false, Mem.store, if_true, Outcome.ret.injEq, Prod.mk.injEq,
    Heap.mk.injEq, true_and, and_true]
  funext a
  by_cases ha : a = h.brk <;> simp [ha]

theorem built_add_edge (h0 h : Heap) (n s j d : Nat) (w : World) (hb : built h0 n s j h)
    (hs : s < n) (hm : w.heap.head? ≠ some false) :
    ∃ h1, Mem.add_edge (some h0.brk) s d h w =
        Outcome.ret ((), h1) { w with heap := w.heap.tail } ∧
      built h0 n s (j + 1) h1 := by
  obtain ⟨hbrk, hfreed, hhdr, ⟨cells, p, hslots, hlen, hcs, hother, hchain⟩, hout⟩ := hb
  have hne0 : h0.brk ≠ h.brk := by omega
  have hne1 : h0.brk + 1 ≠ h.brk := by omega
  have hne01 : h0.brk ≠ h0.brk + 1 := by omega
  have hslen : s < cells.length := by omega
  refine ⟨{ blocks := fun a =>
              if a = h0.brk + 1 then some (Block.slots (cells.set s (some h.brk)))
              else if a = h.brk then some (Block.node d p) else h.blocks a
            brk := h.brk + 1
            freed := h.freed }, ?_, ?_⟩
  · simp only [Mem.add_edge, Mem.load_header, Mem.load_cell, Mem.store_cell, hbind_apply,
      HProg.bind, mem_load_eq h w _ _ hhdr, mem_load_eq h w _ _ hslots, hpure_apply, hcs,
      mem_al_cons_ok d p h w hm]
    rw [mem_load_eq _ _ h0.brk (Block.header n (some (h0.brk + 1))) (by simp [hne0, hhdr])]
    simp only []
    rw [mem_load_eq _ _ (h0.brk + 1) (Block.slots cells) (by simp [hne1, hslots])]
    simp only [hslen, if_true]
    rw [mem_store_eq _ _ (h0.brk + 1) (Block.slots cells) _ (by simp [hne1, hslots])]
  · refine ⟨by simp only []; omega, hfreed, ?_, ⟨cells.set s (some h.brk), some h.brk, ?_, ?_, ?_, ?_, ?_⟩, ?_⟩
    · simp [hne0, hne01, hhdr]
    · simp
    · simpa using hlen
    · simp [List.getElem?_set_self hslen]
    · intro i hi hin
      rw [List.getElem?_set_ne (Ne.symm hi)]
      exact hother i hi hin
    · rw [node_addrs_succ]
      have hbrk2 : h.brk = h0.brk + 2 + j := hbrk
      refine ⟨by rw [hbrk2], d, p, ?_, ?_⟩
      · have : h0.brk + 2 + j ≠ h0.brk + 1 := by omega
        simp [this, hbrk2]
      · refine is_chain_congr h _ _ p hchain ?_
        intro x hx
        have hx2 := (mem_node_addrs h0.brk j x).mp hx
        have h1 : x ≠ h0.brk + 1 := by omega
        have h2 : x ≠ h.brk := by omega
        simp [h1, h2]
    · intro a ha
      have h1 : a ≠ h0.brk + 1 := by omega
      have h2 : a ≠ h.brk := by omega
      simp only [h1, h2, if_false]
      exact hout a (by omega)

theorem built_add_edges (h0 : Heap) (n s : Nat) (hs : s < n) :
    ∀ (dests : List Nat) (j : Nat) (h : Heap) (w : World), built h0 n s j h → allocs_ok w →
      ∃ h1 w1, Mem.add_edges (some h0.brk) (dests.map fun d => (s, d)) h w =
          Outcome.ret ((), h1) w1 ∧
        built h0 n s (j + dests.length) h1 := by
  intro dests
  induction dests with
  | nil => intro j h w hb _; exact ⟨h, w, rfl, hb⟩
  | cons d rest ih =>
    intro j h w hb hw
    obtain ⟨h1, hrun1, hb1⟩ := built_add_edge h0 h n s j d w hb hs (allocs_ok_head w hw)
    obtain ⟨h2, w2, hrun2, hb2⟩ := ih (j + 1) h1 _ hb1 (allocs_ok_tail w hw)
    refine ⟨h2, w2, ?_, ?_⟩
    · simp only [List.map_cons, Mem.add_edges, hbind_apply, HProg.bind, hrun1]
      exact hrun2
    · have : j + (d :: rest).length = j + 1 + rest.length := by
        simp only [List.length_cons]; omega
      rw [this]
      exact hb2

theorem flatten_single (l : List Nat) (s : Nat) :
    ∀ (r i : Nat), ((List.range' i r).map fun x => if x = s then l else []).flatten
      = if i ≤ s ∧ s < i + r then l else [] := by
  intro r
  induction r with
  | zero =>
    intro i
    have : ¬ (i ≤ s ∧ s < i + 0) := by omega
    simp [this]
  | succ r ih =>
    intro i
    simp only [List.range'_succ, List.map_cons, List.flatten_cons, ih (i + 1)]
    by_cases his : i = s
    · subst his
      have h1 : ¬ (i + 1 ≤ i ∧ i < i + 1 + r) := by omega
      have h2 : i ≤ i ∧ i < i + (r + 1) := by omega
      simp [h1, h2]
    · by_cases hin : i ≤ s ∧ s < i + (r + 1)
      · have h1 : i + 1 ≤ s ∧ s < i + 1 + r := by omega
        simp [his, hin, h1]
      · have h1 : ¬ (i + 1 ≤ s ∧ s < i + 1 + r) := by omega
        simp [his, hin, h1]

theorem built_heap_wf (h0 h : Heap) (n s j : Nat) (hb : built h0 n s j h) (hwf : heap_wf h0) :
    heap_wf h := by
  intro a ha
  obtain ⟨hbrk, _, _, _, hout⟩ := hb
  rw [hout a (by omega)]
  exact hwf a (by omega)

theorem built_graph_free (h0 h : Heap) (n s j : Nat) (w : World) (hb : built h0 n s j h)
    (hwf : heap_wf h0) (hs : s < n) :
    Mem.graph_free (some h0.brk) h w =
      Outcome.ret ((), h.release (node_addrs h0.brk j ++ [h0.brk + 1, h0.brk])) w ∧
    ∀ a, (h.release (node_addrs h0.brk j ++ [h0.brk + 1, h0.brk])).blocks a = h0.blocks a := by
  have hwfh := built_heap_wf h0 h n s j hb hwf
  obtain ⟨hbrk, hfreed, hhdr, ⟨cells, p, hslots, hlen, hcs, hother, hchain⟩, hout⟩ := hb
  constructor
  · have hfree := graph_free_ok h0.brk (h0.brk + 1) n cells
      (fun i => if i = s then node_addrs h0.brk j else []) h w hwfh hhdr hslots
      (by
        intro i _ hi
        by_cases his : i = s
        · subst his
          exact ⟨p, hcs, by simpa using hchain⟩
        · exact ⟨none, hother i his (by omega), by simp [his, is_chain]⟩)
      (by
        intro j1 j2 _ h12 _ x hx
        by_cases h1 : j1 = s
        · have h2 : j2 ≠ s := by omega
          simp [h2] at hx
        · simp [h1])
    rw [hfree, flatten_single]
    have : 0 ≤ s ∧ s < 0 + n := by omega
    simp [hs]
  · intro a
    simp only [Heap.release, List.mem_append, mem_node_addrs, List.mem_cons,
      List.mem_singleton, List.not_mem_nil, or_false]
    split
    · rename_i hmem
      exact (hwf a (by omega)).symm
    · rename_i hmem
      exact hout a (by omega)

/-- C13, with the calls of `free` recorded in `Heap.freed`: on a chain, `al_free` calls
`free` on every node once, from the head to the tail, and on `NULL` it does nothing;
and after `graph_new(n)` and `k` calls `add_edge` with one source `s < n`, `graph_free`
calls `free` on the `k` nodes (all different), then on the slot sequence, then on the
header, and the heap holds no block it did not hold before `graph_new` (allocations
succeeding). -/
theorem free_trace :
    (∀ (h : Heap) (w : World) (p : Ptr) (addrs : List Nat), is_chain h p addrs → heap_wf h →
      ∃ h1, Mem.al_free p h w = Outcome.ret ((), h1) w ∧
        h1.freed = h.freed ++ addrs ∧ addrs.Nodup ∧
        ∀ a, h1.blocks a = if a ∈ addrs then none else h.blocks a) ∧
    (∀ (h : Heap) (w : World), Mem.al_free none h w = Outcome.ret ((), h) w) ∧
    (∀ (h0 : Heap) (w : World) (n s : Nat) (dests : List Nat), heap_wf h0 → allocs_ok w →
      n ≤ UINT_MAX → s < n →
      ∃ h1 w1,
        (Mem.graph_new n >>= fun g =>
          Mem.add_edges g (dests.map fun d => (s, d)) >>= fun _ => Mem.graph_free g) h0 w
          = Outcome.ret ((), h1) w1 ∧
        h1.freed = h0.freed ++ node_addrs h0.brk dests.length ++ [h0.brk + 1, h0.brk] ∧
        (node_addrs h0.brk dests.length).length = dests.length ∧
        (node_addrs h0.brk dests.length).Nodup ∧
        h0.brk + 1 ∉ node_addrs h0.brk dests.length ∧
        h0.brk ∉ node_addrs h0.brk dests.length ∧
        ∀ a, h1.blocks a = h0.blocks a) := by
  refine ⟨?_, ?_, ?_⟩
  · intro h w p addrs hc hwf
    exact ⟨h.release addrs, al_free_ok h w p addrs hc hwf, rfl,
      is_chain_nodup h addrs p hc, fun a => rfl⟩
  · intro h w
    unfold Mem.al_free
    cases h.brk <;> rfl
  · intro h0 w n s dests hwf hw hn hs
    have h2 : ∀ b ∈ w.heap.take 2, b = true := fun b hb => hw b (List.mem_of_mem_take hb)
    have hw2 : allocs_ok { w with heap := w.heap.drop 2 } :=
      fun b hb => hw b (List.mem_of_mem_drop hb)
    obtain ⟨h1, w1, hrun, hb1⟩ := built_add_edges h0 n s hs dests 0 _ _
      (built_graph_new h0 n s hs) hw2
    rw [Nat.zero_add] at hb1
    have hfree := built_graph_free h0 h1 n s dests.length w1 hb1 hwf hs
    refine ⟨_, w1, ?_, ?_, ?_, ?_, ?_, ?_, hfree.2⟩
    · simp only [hbind_apply, HProg.bind, mem_graph_new_ok h0 w n hn h2, hrun]
      exact hfree.1
    · simp only [Heap.release, hb1.2.1, List.append_assoc]
    · simp [node_addrs]
    · simp only [node_addrs]
      refine List.Nodup.map ?_ (List.nodup_reverse.mpr (List.nodup_range _))
      intro a b hab
      simp only at hab
      omega
    · intro hmem
      have := (mem_node_addrs _ _ _).mp hmem
      omega
    · intro hmem
      have := (mem_node_addrs _ _ _).mp hmem
      omega

/-- C13 on `graph_new(3)` with the edges `(1, 1)`, `(1, 2)`, `(1, 0)`, started on the
empty heap: the nodes are at the addresses 2, 3, 4, and `graph_free` frees 4, 3, 2, then
the slots at 1, then the header at 0. -/
theorem free_trace_witness :
    ∃ h1 w1,
      (Mem.graph_new 3 >>= fun g =>
        Mem.add_edges g [(1, 1), (1, 2), (1, 0)] >>= fun _ => Mem.graph_free g)
          Heap.init World.init
        = Outcome.ret ((), h1) w1 ∧
      h1.freed = [4, 3, 2, 1, 0] ∧ ∀ a, h1.blocks a = none := by
  obtain ⟨h1, w1, hrun, hfreed, _, _, _, _, hblocks⟩ :=
    free_trace.2.2 Heap.init World.init 3 1 [1, 2, 0] (fun _ _ => rfl) (by decide)
      (by decide) (by decide)
  exact ⟨h1, w1, hrun, hfreed.trans (by decide), fun a => by rw [hblocks a]; rfl⟩

end DirGraph
